import Mathlib

/-!
# beamer: a one-way file synchronisation link

A shallow embedding of `src/beamer/beamer.c`.

* C strings (`char *`) are `List Char`; the terminating NUL is implicit.
* Bytes are natural numbers; machine words are natural numbers reduced
  modulo `2 ^ width` at the places where C converts them.
* `long` is 64 bits wide (LP64), `htonl` and `ntohl` act on `uint32_t`.
  The byte order of the host is a parameter (`le = true`: little endian).
* The operating system is a small explicit model: a filesystem mapping
  path strings to nodes, and a Link that hands out the bytes in flight in
  the bursts in which they reach the reader.
* Loops that the C code does not bound take a fuel argument; running out
  of fuel is the result `Res.nofuel`.
-/

namespace Beamer

/-! ## Frame codec arithmetic -/

/-- Byte number `i` of the word `v`, byte 0 being the least significant. -/
def byte_of (v i : Nat) : Nat := v / 256 ^ i % 256

/-- Byte reversal of a 32-bit word, what `htonl` does on a little-endian host. -/
def bswap32 (x : Nat) : Nat :=
  byte_of x 0 * 2 ^ 24 + byte_of x 1 * 2 ^ 16 + byte_of x 2 * 2 ^ 8 + byte_of x 3

/-- The function `uint32_t htonl(uint32_t)`: the argument is first converted to
`uint32_t` (reduced modulo `2 ^ 32`), then byte-swapped on a little-endian host. -/
def htonl (le : Bool) (x : Nat) : Nat :=
  if le then bswap32 (x % 2 ^ 32) else x % 2 ^ 32

/-- The function `uint32_t ntohl(uint32_t)`, the same conversion as `htonl`. -/
def ntohl (le : Bool) (x : Nat) : Nat :=
  if le then bswap32 (x % 2 ^ 32) else x % 2 ^ 32

/-- The eight bytes that a 64-bit `long` holding `v` occupies in memory, in
address order. -/
def long_to_mem (le : Bool) (v : Nat) : List Nat :=
  if le then (List.range 8).map (byte_of v) else ((List.range 8).map (byte_of v)).reverse

/-- The value of a 64-bit `long` whose memory holds the bytes `bs`. -/
def mem_to_long (le : Bool) (bs : List Nat) : Nat :=
  (if le then bs else bs.reverse).foldr (fun b acc => b % 256 + 256 * acc) 0

/-- The constant `sizeof(long)`. -/
def SIZEOF_LONG : Nat := 8

/-! ## Paths and the filesystem model -/

/-- A C string. -/
abbrev Path := List Char

/-- The macro `PATH_SEP`. -/
def PATH_SEP : Char := '/'

/-- A filesystem object: a directory, or a regular file with its bytes and
its permission bits. -/
inductive Node where
  | dir
  | file (data : List Nat) (mode : Nat)
  deriving DecidableEq, Repr

/-- The filesystem: what each path string names, if anything. Paths are
compared as written (no `.`/`..` or `//` normalisation); the empty path stands
for the root and the working directory, which always exist. -/
abbrev FS := Path → Option Node

/-- The filesystem with nothing in it. -/
def FS.empty : FS := fun _ => none

/-- Bind path `k` to node `n`. -/
def FS.set (fs : FS) (k : Path) (n : Node) : FS := fun q => if q = k then some n else fs q

/-- Remove whatever path `k` names. -/
def FS.del (fs : FS) (k : Path) : FS := fun q => if q = k then none else fs q

/-- Path `p` without its trailing separators. -/
def strip_slashes (p : Path) : Path := (p.reverse.dropWhile (fun c => c = PATH_SEP)).reverse

/-- The directory part of `p`: everything before the last separator of `p`
(trailing separators ignored). -/
def parent (p : Path) : Path :=
  strip_slashes (((strip_slashes p).reverse.dropWhile (fun c => c ≠ PATH_SEP)).reverse)

/-- Does key `k` name a directory? -/
def FS.is_dir (fs : FS) (k : Path) : Bool :=
  match k, fs k with
  | [], _ => true
  | _, some Node.dir => true
  | _, _ => false

/-- The `errno` values the model distinguishes. -/
inductive Errno where
  | ENOENT | ENOTDIR | EEXIST | EISDIR | EACCES | EBUSY | EBADF
  deriving DecidableEq, Repr

/-- System call `mkdir(p, 0777)`: fails with `EEXIST` when `p` names something,
with `ENOENT`/`ENOTDIR` when its parent is not a directory. -/
def sys_mkdir (fs : FS) (p : Path) : Except Errno FS :=
  let k := strip_slashes p
  if k = [] then Except.error Errno.EEXIST
  else match fs k with
    | some _ => Except.error Errno.EEXIST
    | none =>
      if fs.is_dir (parent k) then Except.ok (fs.set k Node.dir)
      else match fs (parent k) with
        | some _ => Except.error Errno.ENOTDIR
        | none => Except.error Errno.ENOENT

/-- System call `open(p, O_WRONLY | O_TRUNC | O_CREAT, mode)` in a process whose
file mode creation mask is `umask`: the file is created with the permission
bits of `mode` that the mask does not clear, or truncated when it exists and
is writable by its owner. -/
def sys_open_create (fs : FS) (p : Path) (mode umask : Nat) : Except Errno FS :=
  if p = [] then Except.error Errno.ENOENT
  else if fs.is_dir (parent p) then
    if p.getLast? = some PATH_SEP then Except.error Errno.EISDIR
    else match fs p with
      | some Node.dir => Except.error Errno.EISDIR
      | some (Node.file _ m) =>
        if m / 128 % 2 = 1 then Except.ok (fs.set p (Node.file [] m))
        else Except.error Errno.EACCES
      | none => Except.ok (fs.set p (Node.file [] (mode % 4096 &&& (4095 - umask % 4096))))
  else match fs (parent p) with
    | some _ => Except.error Errno.ENOTDIR
    | none => Except.error Errno.ENOENT

/-- System call `rename(old, new)` for a regular file: `new` is replaced
atomically. A directory at `old` is taken to be in use (`EBUSY`). -/
def sys_rename (fs : FS) (old new : Path) : Except Errno FS :=
  match fs old with
  | none => Except.error Errno.ENOENT
  | some Node.dir => Except.error Errno.EBUSY
  | some (Node.file d m) =>
    if fs.is_dir (parent new) then
      match fs new with
      | some Node.dir => Except.error Errno.EISDIR
      | _ => Except.ok ((fs.del old).set new (Node.file d m))
    else Except.error Errno.ENOENT

/-- System call `chmod(p, mode)`: only the permission bits of `mode` are kept. -/
def sys_chmod (fs : FS) (p : Path) (mode : Nat) : Except Errno FS :=
  match fs p with
  | none => Except.error Errno.ENOENT
  | some Node.dir => Except.ok fs
  | some (Node.file d _) => Except.ok (fs.set p (Node.file d (mode % 4096)))

/-- Writing `bs` at the end of the regular file `p` through a descriptor that
is open on it. -/
def sys_append (fs : FS) (p : Path) (bs : List Nat) : Except Errno FS :=
  match fs p with
  | some (Node.file d m) => Except.ok (fs.set p (Node.file (d ++ bs) m))
  | _ => Except.error Errno.EBADF

/-! ## The Link -/

/-- What one read on the socket finds: a burst of bytes that has arrived, or
a pending socket error. -/
inductive Seg where
  | bytes (bs : List Nat)
  | fail
  deriving DecidableEq, Repr

/-- The receiving end of a Link: the bursts still to be read, oldest first,
and whether the peer still holds its end open once they are consumed. -/
structure Link where
  segs : List Seg
  peerOpen : Bool
  deriving DecidableEq, Repr

/-- The result of a read on the socket: `-1`, or the bytes obtained (none at
end of stream). -/
inductive IoRes where
  | err
  | got (bs : List Nat)
  deriving DecidableEq, Repr

/-- The return value of the system call. -/
def IoRes.ret : IoRes → Int
  | IoRes.err => -1
  | IoRes.got bs => (bs.length : Int)

/-- A blocking read of at most `n` bytes (`recv`, or `splice` from the socket).
`none`: nothing is in flight and the peer keeps the Link open, the call never
returns. At end of stream the call returns 0 bytes. -/
def sock_read : List Seg → Bool → Nat → Option (IoRes × List Seg)
  | [], peerOpen, _ => if peerOpen then none else some (IoRes.got [], [])
  | Seg.fail :: rest, _, _ => some (IoRes.err, rest)
  | Seg.bytes bs :: rest, peerOpen, n =>
    if bs = [] then sock_read rest peerOpen n
    else if bs.length ≤ n then some (IoRes.got bs, rest)
    else some (IoRes.got (bs.take n), Seg.bytes (bs.drop n) :: rest)

/-- The read applied to a Link. -/
def Link.read (l : Link) (n : Nat) : Option (IoRes × Link) :=
  match sock_read l.segs l.peerOpen n with
  | none => none
  | some (r, segs) => some (r, { l with segs := segs })

/-! ## Program state and results -/

/-- The lines the program writes to its output and error streams, one
constructor per format string of the source. -/
inductive Msg where
  | warn_size
  | zero_size
  | start_receiving (sz : Nat)
  | info_rename (path bak : Path)
  | warn_create (path : Path)
  | warn_recv
  | warn_write (path : Path)
  | received (sz : Nat) (path : Path)
  | warn_mode (mode : Nat)
  | fatal_lstat (path : Path)
  | fatal_open (path : Path)
  | fatal_txsize
  | fatal_sendfile (path : Path)
  | transmitting (path : Path) (sz : Nat)
  deriving DecidableEq, Repr

/-- The state the receiver works on: the accepted Link, the filesystem, the
global `fmode`, the file mode creation mask of the process, the byte order of
the host and the output written so far. -/
structure World where
  link : Link
  fs : FS
  fmode : Nat
  umask : Nat
  le : Bool
  log : List Msg

/-- How a receiver function ends: it returns a value, it blocks for ever in
a system call on the Link, it reads an uninitialised variable, or the fuel of
the model ran out. -/
inductive Res (α : Type) where
  | ret (a : α) (w : World)
  | blocked (w : World)
  | undef
  | nofuel

/-- The descriptor `open` hands out inside `write_file`: 0 to 2 are the
standard streams, 3 the server socket, 4 the epoll instance, 5 the Link, 6 and
7 the pipe. -/
def DEST_FD : Int := 8

/-! ## The receiver -/

/-- The loop of `create_path`: `rest` is the text of `path` from index `pos`
on, `ret` the variable `ret` (`none` while it has never been assigned). Every
separator found from index 1 on ends a prefix `buf` that is passed to `mkdir`;
the first failing `mkdir` ends the loop. -/
def create_path_scan (path : Path) : List Char → Nat → Option Int → FS → Option Int × FS
  | [], _, ret, fs => (ret, fs)
  | c :: rest, pos, ret, fs =>
    if c = PATH_SEP then
      match sys_mkdir fs (path.take (pos + 1)) with
      | Except.ok fs1 => create_path_scan path rest (pos + 1) (some 0) fs1
      | Except.error _ => (some (-1), fs)
    else create_path_scan path rest (pos + 1) ret fs

/-- The function `create_path`: returns `ret`, which is `none` when the loop
body never ran and `ret` was never assigned. -/
def create_path (fs : FS) (path : Path) : Option Int × FS :=
  create_path_scan path (path.drop 1) 1 none fs

/-- The function `create_file`: each unit of fuel is one pass through the
label `create_file`. -/
def create_file : Nat → World → Path → Res Int
  | 0, _, _ => Res.nofuel
  | fuel + 1, w, path =>
    match sys_open_create w.fs path w.fmode w.umask with
    | Except.ok fs1 => Res.ret DEST_FD { w with fs := fs1 }
    | Except.error e =>
      if e = Errno.ENOENT ∨ e = Errno.ENOTDIR then
        match create_path w.fs path with
        | (none, _) => Res.undef
        | (some err, fs1) =>
          if err ≠ 0 then Res.ret err { w with fs := fs1 }
          else create_file fuel { w with fs := fs1 } path
      else Res.ret (-1) w

/-- The function `rxsize`: the return value and the content of `*sz`
afterwards (`sz` is its content before), with the Link after the `recv`;
`none` when `recv` never returns. -/
def rxsize (le : Bool) (l : Link) (sz : Nat) : Option ((Int × Nat) × Link) :=
  match l.read SIZEOF_LONG with
  | none => none
  | some (IoRes.err, l1) => some ((-1, sz), l1)
  | some (IoRes.got bs, l1) =>
    if bs.length = SIZEOF_LONG then some ((0, ntohl le (mem_to_long le bs)), l1)
    else some (((bs.length : Int), sz), l1)

/-- The `while (recvd < sz)` loop of `write_file`; `true` is returned when the
loop ends by its condition, `false` when it is left through `goto cleanup_file`.
Each unit of fuel is one evaluation of the loop condition. -/
def write_loop : Nat → World → Nat → Nat → Path → Res Bool
  | 0, _, _, _, _ => Res.nofuel
  | fuel + 1, w, sz, recvd, path =>
    if recvd < sz then
      match w.link.read (sz - recvd) with
      | none => Res.blocked w
      | some (IoRes.err, l1) =>
        Res.ret false { w with link := l1, log := w.log ++ [Msg.warn_recv] }
      | some (IoRes.got bs, l1) =>
        match sys_append w.fs path bs with
        | Except.error _ =>
          Res.ret false { w with link := l1, log := w.log ++ [Msg.warn_write path] }
        | Except.ok fs1 =>
          write_loop fuel { w with link := l1, fs := fs1 } sz (recvd + bs.length) path
    else Res.ret true w

/-- The function `write_file` (the call of `pipe` is taken to succeed). -/
def write_file (fuel : Nat) (w : World) (sz : Nat) (path : Path) : Res Unit :=
  match create_file fuel w path with
  | Res.ret fd w1 =>
    if fd = -1 then Res.ret () { w1 with log := w1.log ++ [Msg.warn_create path] }
    else
      match write_loop fuel w1 sz 0 path with
      | Res.ret true w2 =>
        match sys_chmod w2.fs path w2.fmode with
        | Except.ok fs1 =>
          Res.ret () { w2 with fs := fs1, log := w2.log ++ [Msg.received sz path] }
        | Except.error _ =>
          Res.ret () { w2 with log := w2.log ++ [Msg.received sz path, Msg.warn_mode w2.fmode] }
      | Res.ret false w2 => Res.ret () w2
      | Res.blocked w2 => Res.blocked w2
      | Res.undef => Res.undef
      | Res.nofuel => Res.nofuel
  | Res.blocked w1 => Res.blocked w1
  | Res.undef => Res.undef
  | Res.nofuel => Res.nofuel

/-- The path of the backup, `path` followed by `.prev`. -/
def bakpath (path : Path) : Path := path ++ ['.', 'p', 'r', 'e', 'v']

/-- The function `backup_file`. -/
def backup_file (w : World) (path : Path) : World :=
  match sys_rename w.fs path (bakpath path) with
  | Except.ok fs1 => { w with fs := fs1 }
  | Except.error _ => { w with log := w.log ++ [Msg.info_rename path (bakpath path)] }

/-- The function `file_transfer_loop` (`epoll_wait` is taken to return once
the Link is readable or hung up). Each unit of fuel is one pass of the
`for (;;)` loop. -/
def file_transfer_loop : Nat → World → Path → Res Unit
  | 0, _, _ => Res.nofuel
  | fuel + 1, w, path =>
    match rxsize w.le w.link 0 with
    | none => Res.blocked w
    | some ((ret, sz), l1) =>
      if ret ≠ 0 then
        file_transfer_loop fuel { w with link := l1, log := w.log ++ [Msg.warn_size] } path
      else if sz = 0 then
        Res.ret () { w with link := l1, log := w.log ++ [Msg.zero_size] }
      else
        match write_file fuel
            (backup_file { w with link := l1, log := w.log ++ [Msg.start_receiving sz] } path)
            sz path with
        | Res.ret _ w1 => file_transfer_loop fuel w1 path
        | Res.blocked w1 => Res.blocked w1
        | Res.undef => Res.undef
        | Res.nofuel => Res.nofuel

/-- `Serves path v w0`: a run of `file_transfer_loop` that begins a pass of its
`for (;;)` loop in the world `v` begins that pass or a later one in the world
`w0`. A pass is followed by another after a header read that fails or is short,
and after a transfer from which `write_file` returns. -/
inductive Serves (path : Path) : World → World → Prop where
  | here (v : World) : Serves path v v
  | warned (v w0 : World) (ret : Int) (sz : Nat) (l1 : Link) :
      rxsize v.le v.link 0 = some ((ret, sz), l1) → ret ≠ 0 →
      Serves path { v with link := l1, log := v.log ++ [Msg.warn_size] } w0 →
      Serves path v w0
  | written (v v2 w0 : World) (sz : Nat) (l1 : Link) (f : Nat) :
      rxsize v.le v.link 0 = some ((0, sz), l1) → sz ≠ 0 →
      write_file f
          (backup_file { v with link := l1, log := v.log ++ [Msg.start_receiving sz] } path)
          sz path = Res.ret () v2 →
      Serves path v2 w0 → Serves path v w0

/-! ## The transmitter -/

/-- The state the transmitter works on: the filesystem, the bytes it has put
on the Link so far, whether the socket still accepts data, the byte order of
the host and the output written so far. -/
structure TxWorld where
  fs : FS
  out : List Nat
  linkUp : Bool
  le : Bool
  log : List Msg

/-- How a transmitter function ends: it returns, or the process exits through
`fatal`. -/
inductive TxRes where
  | ret (w : TxWorld)
  | fatal (w : TxWorld)

/-- The function `txsize`: `val = htonl(sz)` is stored in a `long` and its
`sizeof(val)` bytes are sent. -/
def txsize (w : TxWorld) (sz : Nat) : TxRes :=
  if w.linkUp then TxRes.ret { w with out := w.out ++ long_to_mem w.le (htonl w.le sz) }
  else TxRes.fatal { w with log := w.log ++ [Msg.fatal_txsize] }

/-- System call `lstat`: the field `st_size`, or `none` for the return value -1.
A directory reports one block. -/
def sys_lstat (fs : FS) (p : Path) : Option Nat :=
  match fs p with
  | none => none
  | some Node.dir => some 4096
  | some (Node.file d _) => some d.length

/-- System call `open(p, O_RDONLY)`: a descriptor, or -1 when the file is not
readable by its owner or does not exist. -/
def sys_open_rdonly (fs : FS) (p : Path) : Int :=
  match fs p with
  | none => -1
  | some Node.dir => 3
  | some (Node.file _ m) => if m / 256 % 2 = 1 then 3 else -1

/-- System call `sendfile(sock, fd, NULL, count)` on the descriptor `fd` opened
on `p`: the bytes sent and the return value. -/
def sys_sendfile (w : TxWorld) (fd : Int) (p : Path) (count : Nat) : Int × TxWorld :=
  if fd = -1 ∨ w.linkUp = false then (-1, w)
  else match w.fs p with
    | some (Node.file d _) => (((d.take count).length : Int), { w with out := w.out ++ d.take count })
    | _ => (-1, w)

/-- The function `send_file`. The variable `ret` still holds the result of
`lstat` when it is tested after `open`. -/
def send_file (w : TxWorld) (path : Path) : TxRes :=
  match sys_lstat w.fs path with
  | none => TxRes.fatal { w with log := w.log ++ [Msg.fatal_lstat path] }
  | some st_size =>
    let ret : Int := 0
    let fd := sys_open_rdonly w.fs path
    if ret = -1 then TxRes.fatal { w with log := w.log ++ [Msg.fatal_open path] }
    else if st_size > 0 then
      match txsize w st_size with
      | TxRes.fatal w1 => TxRes.fatal w1
      | TxRes.ret w1 =>
        match sys_sendfile w1 fd path st_size with
        | (sent, w2) =>
          if sent < 0 then TxRes.fatal { w2 with log := w2.log ++ [Msg.fatal_sendfile path] }
          else TxRes.ret { w2 with log := w2.log ++ [Msg.transmitting path st_size] }
    else TxRes.ret { w with log := w.log ++ [Msg.transmitting path st_size] }

/-- The NUL character. -/
def NUL : Char := Char.ofNat 0

/-- The C string held in a buffer: its content up to the first NUL. -/
def cstr (buf : List Char) : List Char := buf.takeWhile (fun c => c ≠ NUL)

/-- Comparison of two strings character by character. -/
def strcmp_chars : List Char → List Char → Int
  | [], [] => 0
  | [], _ :: _ => -1
  | _ :: _, [] => 1
  | a :: as, b :: bs =>
    if a = b then strcmp_chars as bs else if a.toNat < b.toNat then -1 else 1

/-- The function `strcmp` on two buffers holding C strings. -/
def strcmp (a b : List Char) : Int := strcmp_chars (cstr a) (cstr b)

/-- An inotify event: its `mask`, and the `len` bytes of its `name` field (the
name followed by NUL padding). -/
structure InotifyEvent where
  mask : Nat
  name : List Char
  deriving DecidableEq, Repr

/-- The field `len` of the event. -/
def InotifyEvent.len (ev : InotifyEvent) : Nat := ev.name.length

/-- The constant `IN_DELETE`. -/
def IN_DELETE : Nat := 0x200

/-- The constant `IN_DELETE_SELF`. -/
def IN_DELETE_SELF : Nat := 0x400

/-- The condition under which `start_transmitter` calls `send_file` for an
event; `~(IN_DELETE|IN_DELETE_SELF)` is taken in the 32 bits of `mask`. -/
def event_selected (args1 : List Char) (ev : InotifyEvent) : Bool :=
  decide (ev.mask % 2 ^ 32 &&& (2 ^ 32 - 1 - (IN_DELETE ||| IN_DELETE_SELF)) ≠ 0) &&
    decide (ev.len ≠ 0) && decide (strcmp args1 ev.name = 0)

/-- The loop `while (proc < len)` of `start_transmitter` over the events of one
buffer. Beside the result it returns the events for which `send_file` was
called, in order. -/
def drain_events (args1 : List Char) (path : Path) : List InotifyEvent → TxWorld →
    TxRes × List InotifyEvent
  | [], w => (TxRes.ret w, [])
  | ev :: evs, w =>
    if event_selected args1 ev then
      match send_file w path with
      | TxRes.fatal w1 => (TxRes.fatal w1, [ev])
      | TxRes.ret w1 =>
        ((drain_events args1 path evs w1).1, ev :: (drain_events args1 path evs w1).2)
    else drain_events args1 path evs w

/-! ## Auxiliary definitions used in the statements -/

/-- The world in which a transmitter function ended. -/
def TxRes.world : TxRes → TxWorld
  | TxRes.ret w => w
  | TxRes.fatal w => w

/-- The bytes one transfer of a file holding `c` occupies on the Link: the
header `txsize` writes for its size, then its content. -/
def frame (le : Bool) (c : List Nat) : List Nat :=
  long_to_mem le (htonl le c.length) ++ c

/-- The bytes of successive transfers. -/
def frames (le : Bool) : List (List Nat) → List Nat
  | [] => []
  | c :: cs => frame le c ++ frames le cs

/-- `Heads hdr s s1`: on the bursts `s` one `recv` of `sizeof(long)` bytes obtains
the whole header `hdr` and leaves the bursts `s1`. The header is the start of
the first burst that is not empty; it is not split between two bursts. -/
inductive Heads (hdr : List Nat) : List Seg → List Seg → Prop where
  | skip (rest s1 : List Seg) : Heads hdr rest s1 → Heads hdr (Seg.bytes [] :: rest) s1
  | whole (rest : List Seg) : Heads hdr (Seg.bytes hdr :: rest) rest
  | more (t : List Nat) (rest : List Seg) : t ≠ [] →
      Heads hdr (Seg.bytes (hdr ++ t) :: rest) (Seg.bytes t :: rest)

/-- `Feeds c s s1`: the bursts `s` start with the payload `c`, cut into bursts
in any way, and `s1` is what is left on the Link once `c` has been taken. A
burst may end inside the payload, at its end, or go on with bytes of what
follows. -/
inductive Feeds : List Nat → List Seg → List Seg → Prop where
  | done (s : List Seg) : Feeds [] s s
  | skip (c : List Nat) (rest s1 : List Seg) : c ≠ [] → Feeds c rest s1 →
      Feeds c (Seg.bytes [] :: rest) s1
  | whole (bs c : List Nat) (rest s1 : List Seg) : bs ≠ [] → Feeds c rest s1 →
      Feeds (bs ++ c) (Seg.bytes bs :: rest) s1
  | more (c t : List Nat) (rest : List Seg) : c ≠ [] → t ≠ [] →
      Feeds c (Seg.bytes (c ++ t) :: rest) (Seg.bytes t :: rest)

/-- `Delivers le cs s`: the bursts `s` carry the transfers `cs` one after the
other and nothing else. Each transfer is the header `txsize` writes for a
non-empty content of fewer than `2 ^ 32` bytes, obtained by one `recv`, and
then the content in any number of bursts. -/
inductive Delivers (le : Bool) : List (List Nat) → List Seg → Prop where
  | nil (s : List Seg) : (∀ x ∈ s, x = Seg.bytes []) → Delivers le [] s
  | cons (c : List Nat) (cs : List (List Nat)) (s s1 s2 : List Seg) : c ≠ [] →
      c.length < 2 ^ 32 → Heads (long_to_mem le (htonl le c.length)) s s1 → Feeds c s1 s2 →
      Delivers le cs s2 → Delivers le (c :: cs) s

/-- The filesystem after one completed transfer of content `c` to `path`: a
regular file at `path` has moved to the backup path, and `path` holds `c`
with the permission bits of `mode`. -/
def transfer_fs (path : Path) (mode : Nat) (fs : FS) (c : List Nat) : FS :=
  match fs path with
  | some (Node.file d m) =>
    (((fs.del path).set (bakpath path) (Node.file d m))).set path (Node.file c (mode % 4096))
  | _ => fs.set path (Node.file c (mode % 4096))

/-- The conditions on the destination under which every system call of a
transfer succeeds: the path names a file position inside an existing
directory, and neither it nor its backup path is a directory. -/
def Writable (fs : FS) (path : Path) : Prop :=
  path ≠ [] ∧ path.getLast? ≠ some PATH_SEP ∧ fs.is_dir (parent path) = true ∧
    fs path ≠ some Node.dir ∧ fs (bakpath path) ≠ some Node.dir

/-! ## Connecting to the receiver -/

/-- One address of the list `getaddrinfo` returns, with what the system calls
do on it: the return value of `socket` and the return value of `connect` on
that socket. -/
structure Candidate where
  sock : Int
  conn : Int
  deriving DecidableEq, Repr

/-- How `open_link` ends: the process exits through `fatal`, the function
returns a `sock` that was never assigned, or it returns the value `fd`. -/
inductive OpenRes where
  | fatal
  | undef
  | fd (s : Int)
  deriving DecidableEq, Repr

/-- The loop `for (rp = res; rp != NULL; rp = rp->ai_next)` of `open_link`; the
second argument is the variable `sock` (`none` while it has never been
assigned), the result its value when the loop is left. -/
def open_link_loop : List Candidate → Option Int → Option Int
  | [], sock => sock
  | rp :: rest, _ =>
    if rp.sock = -1 then open_link_loop rest (some rp.sock)
    else if rp.conn = 0 then some rp.sock
    else open_link_loop rest (some (-1))

/-- The function `open_link`, given the return value `ret` of `getaddrinfo`
and the list `res` it produced. -/
def open_link (ret : Int) (res : List Candidate) : OpenRes :=
  if ret ≠ 0 then OpenRes.fatal
  else match open_link_loop res none with
    | none => OpenRes.undef
    | some s => OpenRes.fd s

/-- A candidate on which both `socket` and `connect` succeed. -/
def Candidate.connects (c : Candidate) : Bool := decide (c.sock ≠ -1) && decide (c.conn = 0)

end Beamer

/-!
# binscout: search a file for a byte sequence

A shallow embedding of `src/binscout/binscout.c`. Bytes are natural numbers,
strings are `List Char`. `unsigned int` values are reduced modulo `2 ^ 32`
where the code computes them; a counter of type `int` that would pass
`INT_MAX` makes the result undefined.
-/

namespace Binscout

/-- The constant `INT_MAX`. -/
def INT_MAX : Nat := 2 ^ 31 - 1

/-- The libc function `isxdigit` in the C locale. -/
def isxdigit (c : Char) : Bool :=
  (decide (48 ≤ c.toNat) && decide (c.toNat ≤ 57)) ||
    (decide (97 ≤ c.toNat) && decide (c.toNat ≤ 102)) ||
    (decide (65 ≤ c.toNat) && decide (c.toNat ≤ 70))

/-- Modelled from the spec: `tohex` comes from the header `hex.h`, which is not
among the sources; it maps a hexadecimal digit character to its value 0..15
(any other character is given the value 0 here, which the code never uses). -/
def tohex (c : Char) : Nat :=
  if 48 ≤ c.toNat ∧ c.toNat ≤ 57 then c.toNat - 48
  else if 97 ≤ c.toNat ∧ c.toNat ≤ 102 then c.toNat - 87
  else if 65 ≤ c.toNat ∧ c.toNat ≤ 70 then c.toNat - 55
  else 0

/-- The statement `vec[k] |= x` on an array of `unsigned char`. -/
def or_at : List Nat → Nat → Nat → List Nat
  | [], _, _ => []
  | b :: bs, 0, x => ((b ||| x) % 256) :: bs
  | b :: bs, k + 1, x => b :: or_at bs k x

/-- The character `*str` of a C string whose remaining text is `str`: the
terminating NUL when the text is used up. -/
def cur (str : List Char) : Char := str.headD (Char.ofNat 0)

/-- The loop `while (ncnt < 2 * binlen)` of `compile_hex`. The first argument is
the number of passes left, `2 * binlen - ncnt`; `none` is the return of `NULL`
from inside the loop, `some vec` the array when the loop ends. -/
def compile_hex_loop : Nat → List Char → Nat → List Nat → Option (List Nat)
  | 0, _, _, vec => some vec
  | n + 1, str, ncnt, vec =>
    if isxdigit (cur str) then
      compile_hex_loop n str.tail (ncnt + 1)
        (or_at vec (ncnt / 2) (tohex (cur str) * (if ncnt % 2 = 0 then 16 else 1)))
    else none

/-- How `compile_hex` ends: an assertion fails, it returns `NULL`, or it
returns a byte vector (`len` is the length of `vec`). -/
inductive HexRes where
  | aborted
  | null
  | vec (v : List Nat)
  deriving DecidableEq, Repr

/-- The function `compile_hex` on the text `str` and the length `len`;
`binlen` and `ncnt` are `unsigned int`. -/
def compile_hex (str : List Char) (len : Nat) : HexRes :=
  if len = 0 then HexRes.aborted
  else
    match compile_hex_loop
        (2 * ((len + 1) / 2 % 2 ^ 32) % 2 ^ 32 - (if len % 2 = 1 then 1 else 0))
        str (if len % 2 = 1 then 1 else 0) (List.replicate ((len + 1) / 2 % 2 ^ 32) 0) with
    | none => HexRes.null
    | some v => HexRes.vec v

/-- The second loop of `bmh_gen_tbl`, `for (i = 0; i < bvec->len - 1; i++)`: the
second argument is the part of the needle from index `i` on, so that the loop
ends when one byte is left. The table maps a byte to its `unsigned` entry. -/
def gen_tbl_loop (len : Nat) : List Nat → Nat → (Nat → Nat) → (Nat → Nat)
  | [], _, tbl => tbl
  | [_], _, tbl => tbl
  | b :: b2 :: rest, i, tbl =>
    gen_tbl_loop len (b2 :: rest) (i + 1) (Function.update tbl b ((len - 1 - i) % 2 ^ 32))

/-- The function `bmh_gen_tbl`; `none` when the counter `i` of type `int` would
be incremented past `INT_MAX`, which happens when the loop bound `len - 1`
exceeds `INT_MAX`. Every entry starts as `len` converted to `unsigned`. -/
def bmh_gen_tbl (needle : List Nat) : Option (Nat → Nat) :=
  if needle.length - 1 > INT_MAX then none
  else some (gen_tbl_loop needle.length needle 0 (fun _ => needle.length % 2 ^ 32))

/-- The inner loop of `bmh_crawl`, started at index `i`: `true` when it reaches
`i == 0` with every byte equal (the offset is printed), `false` when it ends
on two bytes that differ. -/
def window_eq (hay needle : List Nat) (off : Nat) : Nat → Bool
  | 0 => decide (hay.getD (off + 0) 0 = needle.getD 0 0)
  | i + 1 =>
    if hay.getD (off + (i + 1)) 0 = needle.getD (i + 1) 0 then window_eq hay needle off i
    else false

/-- The loop `while (mmf->size - off >= bvec->len)` of `bmh_crawl`, with the
offsets printed so far; `none` when the fuel runs out. The subtraction is the
one of `size_t`: `off` never exceeds the size (`crawl_loop_bound`). -/
def crawl_loop (hay needle : List Nat) (tbl : Nat → Nat) :
    Nat → Nat → List Nat → Option (List Nat)
  | 0, _, _ => none
  | fuel + 1, off, out =>
    if hay.length - off ≥ needle.length then
      crawl_loop hay needle tbl fuel
        (off + tbl (hay.getD (off + needle.length - 1) 0))
        (if window_eq hay needle off (needle.length - 1) then out ++ [off] else out)
    else some out

/-- How `bmh_crawl` ends: an assertion fails, the behaviour is undefined, the
fuel of the model runs out, or it returns having printed the offsets `out`. -/
inductive Crawl where
  | aborted
  | undef
  | nofuel
  | done (out : List Nat)
  deriving DecidableEq, Repr

/-- The function `bmh_crawl` on the needle and the mapped file content. -/
def bmh_crawl (fuel : Nat) (needle hay : List Nat) : Crawl :=
  if needle.length = 0 ∨ hay.length = 0 then Crawl.aborted
  else match bmh_gen_tbl needle with
    | none => Crawl.undef
    | some tbl =>
      match crawl_loop hay needle tbl fuel 0 [] with
      | none => Crawl.nofuel
      | some out => Crawl.done out

/-! ## Auxiliary definitions used in the statements -/

/-- Decoding of a string of hexadecimal digits two by two, the first digit of
each pair being the high nybble. -/
def decode_pairs : List Char → List Nat
  | a :: b :: rest => (16 * tohex a + tohex b) :: decode_pairs rest
  | _ => []

/-- The byte-wise decoding of `s`, left-padded with one `0` digit when its
length is odd. -/
def hex_decode (s : List Char) : List Nat :=
  decode_pairs (if s.length % 2 = 1 then '0' :: s else s)

/-- Is there an occurrence of the needle at offset `off` of the haystack: do
the bytes `hay[off .. off + len)` equal the needle? -/
def occurs_at (needle hay : List Nat) (off : Nat) : Bool :=
  decide ((hay.drop off).take needle.length = needle)

/-- The offsets `0 <= off <= size - len` at which the needle occurs, in
increasing order. -/
def occurrences (needle hay : List Nat) : List Nat :=
  (List.range (hay.length + 1 - needle.length)).filter (occurs_at needle hay)

end Binscout

namespace Beamer

/-! ## Frame codec -/

theorem bswap32_lt (x : Nat) : bswap32 x < 2 ^ 32 := by
  unfold bswap32 byte_of
  norm_num
  omega

theorem bswap32_bytes (a b c d : Nat) (ha : a < 256) (hb : b < 256) (hc : c < 256)
    (hd : d < 256) :
    bswap32 (a + 256 * b + 65536 * c + 16777216 * d) = d + 256 * c + 65536 * b + 16777216 * a := by
  unfold bswap32 byte_of
  simp only [Nat.reducePow, pow_zero, Nat.div_one, pow_one]
  omega

theorem bswap32_bswap32 (x : Nat) (h : x < 2 ^ 32) : bswap32 (bswap32 x) = x := by
  have hx : x = x % 256 + 256 * (x / 256 % 256) + 65536 * (x / 65536 % 256)
      + 16777216 * (x / 16777216) := by omega
  have h0 : x % 256 < 256 := Nat.mod_lt _ (by norm_num)
  have h1 : x / 256 % 256 < 256 := Nat.mod_lt _ (by norm_num)
  have h2 : x / 65536 % 256 < 256 := Nat.mod_lt _ (by norm_num)
  have h3 : x / 16777216 < 256 := by omega
  rw [hx, bswap32_bytes _ _ _ _ h0 h1 h2 h3, bswap32_bytes _ _ _ _ h3 h2 h1 h0]

theorem mem_to_long_to_mem (le : Bool) (v : Nat) (h : v < 2 ^ 64) :
    mem_to_long le (long_to_mem le v) = v := by
  cases le <;>
  · simp [mem_to_long, long_to_mem, byte_of, List.range, List.range.loop]
    omega

theorem long_to_mem_length (le : Bool) (v : Nat) : (long_to_mem le v).length = 8 := by
  cases le <;> simp [long_to_mem]

theorem htonl_lt (le : Bool) (x : Nat) : htonl le x < 2 ^ 32 := by
  unfold htonl
  split
  · exact bswap32_lt _
  · exact Nat.mod_lt _ (by norm_num)

theorem ntohl_htonl (le : Bool) (x : Nat) : ntohl le (htonl le x) = x % 2 ^ 32 := by
  have h := htonl_lt le x
  unfold ntohl
  rw [Nat.mod_eq_of_lt h]
  unfold htonl
  cases le
  · simp
  · simp only [if_true]
    exact bswap32_bswap32 _ (Nat.mod_lt _ (by norm_num))

theorem decode_encode (le : Bool) (n : Nat) :
    ntohl le (mem_to_long le (long_to_mem le (htonl le n))) = n % 2 ^ 32 := by
  rw [mem_to_long_to_mem le _ (lt_trans (htonl_lt le n) (by norm_num))]
  exact ntohl_htonl le n

/-! ## Reading the header -/

theorem sock_read_length (segs : List Seg) (po : Bool) (n : Nat) (bs : List Nat)
    (rest : List Seg) (h : sock_read segs po n = some (IoRes.got bs, rest)) : bs.length ≤ n := by
  induction segs with
  | nil =>
    unfold sock_read at h
    split at h
    · cases h
    · cases h
      simp
  | cons s tl ih =>
    cases s with
    | fail => simp [sock_read] at h
    | bytes b =>
      unfold sock_read at h
      split at h
      · exact ih h
      · split at h
        · cases h
          assumption
        · cases h
          simp

theorem link_read_length (l l1 : Link) (n : Nat) (bs : List Nat)
    (h : l.read n = some (IoRes.got bs, l1)) : bs.length ≤ n := by
  unfold Link.read at h
  split at h
  · cases h
  · rename_i r segs hr
    cases h
    exact sock_read_length _ _ _ _ _ hr

theorem htonl_4GiB (le : Bool) : htonl le (2 ^ 32) = 0 := by
  cases le <;> rfl

theorem rxsize_whole_segment (le po : Bool) (hdr : List Nat) (segs : List Seg) (sz0 : Nat)
    (h : hdr.length = 8) :
    rxsize le ⟨Seg.bytes hdr :: segs, po⟩ sz0
      = some ((0, ntohl le (mem_to_long le hdr)), ⟨segs, po⟩) := by
  have hne : hdr ≠ [] := by
    intro h0
    simp [h0] at h
  simp [rxsize, Link.read, sock_read, SIZEOF_LONG, h, hne]

/-- C2, at the failing input n = 2 ^ 32: with an 8-byte `long` and a 32-bit `htonl`,
the header `txsize` writes for the size 2 ^ 32 is received in full by `rxsize`, which
returns 0 and stores 0 in `*sz`, not 2 ^ 32 (on either byte order). -/
theorem txsize_rxsize_wraps_at_4GiB (le po : Bool) (fs : FS) (sz0 : Nat) :
    rxsize le ⟨[Seg.bytes (txsize ⟨fs, [], true, le, []⟩ (2 ^ 32)).world.out], po⟩ sz0
      = some ((0, 0), ⟨[], po⟩) := by
  simp only [txsize, TxRes.world, if_true, List.nil_append]
  rw [rxsize_whole_segment _ _ _ _ _ (long_to_mem_length _ _), decode_encode]
  rfl

/-- C3, counterexample: on a Link the peer has closed `recv` obtains zero bytes, and
`rxsize` returns 0 (ok), leaving `*sz` as it was. -/
theorem rxsize_eof_reports_ok :
    Link.read ⟨[], false⟩ SIZEOF_LONG = some (IoRes.got [], ⟨[], false⟩) ∧
      rxsize true ⟨[], false⟩ 7 = some ((0, 7), ⟨[], false⟩) := by
  decide

/-- C3, amended: whenever `recv` returns, `rxsize` returns a non-zero value exactly when
`recv` failed or obtained between 1 and `sizeof(long) - 1` bytes; it returns 0 exactly
when the full header or zero bytes were obtained, and in the zero-byte case `*sz` keeps
the value the caller gave it. -/
theorem rxsize_status (le : Bool) (l l1 : Link) (sz : Nat) (r : IoRes)
    (h : l.read SIZEOF_LONG = some (r, l1)) :
    ∃ ret out, rxsize le l sz = some ((ret, out), l1) ∧
      (ret ≠ 0 ↔ (r = IoRes.err ∨ ∃ bs, r = IoRes.got bs ∧ 1 ≤ bs.length ∧ bs.length < SIZEOF_LONG)) ∧
      (ret = 0 ↔ ∃ bs, r = IoRes.got bs ∧ (bs.length = SIZEOF_LONG ∨ bs.length = 0)) ∧
      (∀ bs, r = IoRes.got bs → bs.length = 0 → out = sz) := by
  cases r with
  | err =>
    refine ⟨-1, sz, ?_, ?_, ?_, ?_⟩
    · simp [rxsize, h]
    · simp
    · simp
    · intro bs hbs; cases hbs
  | got bs =>
    have hlen := link_read_length _ _ _ _ h
    by_cases h8 : bs.length = SIZEOF_LONG
    · refine ⟨0, ntohl le (mem_to_long le bs), ?_, ?_, ?_, ?_⟩
      · simp [rxsize, h, h8]
      · simp [h8]
      · simp [h8]
      · intro b hb hz
        cases hb
        simp only [SIZEOF_LONG] at h8
        omega
    · refine ⟨(bs.length : Int), sz, ?_, ?_, ?_, ?_⟩
      · simp [rxsize, h, h8]
      · simp only [SIZEOF_LONG] at h8 hlen ⊢
        simp
        rw [← List.length_eq_zero]
        omega
      · simp [h8]
      · intros; rfl

/-- The statement `rxsize_status` at the Link closed by the peer. -/
theorem rxsize_status_witness :
    ∃ ret out, rxsize true ⟨[], false⟩ 7 = some ((ret, out), ⟨[], false⟩) ∧
      (ret ≠ 0 ↔ (IoRes.got [] = IoRes.err ∨
        ∃ bs, IoRes.got [] = IoRes.got bs ∧ 1 ≤ bs.length ∧ bs.length < SIZEOF_LONG)) ∧
      (ret = 0 ↔ ∃ bs, IoRes.got [] = IoRes.got bs ∧ (bs.length = SIZEOF_LONG ∨ bs.length = 0)) ∧
      (∀ bs, IoRes.got [] = IoRes.got bs → bs.length = 0 → out = 7) :=
  rxsize_status true ⟨[], false⟩ ⟨[], false⟩ 7 (IoRes.got []) (by decide)

/-! ## The serving loop -/

/-- C4, counterexample: the first header read obtains 3 bytes (`rxsize` returns 3), yet
`file_transfer_loop` stays on the Link, reads the next header, and backs up and writes
the Destination File before it returns at the end of the stream. -/
theorem short_header_then_next_frame_served :
    (rxsize true ⟨[Seg.bytes [9, 9, 9], Seg.bytes [0, 0, 0, 2, 0, 0, 0, 0, 65, 66]], false⟩ 0).map
        (fun r => r.1.1) = some 3 ∧
      (match file_transfer_loop 5
          ⟨⟨[Seg.bytes [9, 9, 9], Seg.bytes [0, 0, 0, 2, 0, 0, 0, 0, 65, 66]], false⟩,
            FS.empty, 0o755, 0o022, true, []⟩ "a.txt".toList with
        | Res.ret _ w => some (w.fs "a.txt".toList, w.log)
        | _ => none) =
      some (some (Node.file [65, 66] 0o755),
        [Msg.warn_size, Msg.start_receiving 2,
          Msg.info_rename "a.txt".toList "a.txt.prev".toList,
          Msg.received 2 "a.txt".toList, Msg.zero_size]) := by
  decide

/-- Whenever `file_transfer_loop` returns, it does so from a pass of the run in which
`rxsize` returned 0 and left the size at 0: the world returned is the world `w0` in
which that pass began, advanced on the Link and with the line of the disconnect logged. -/
theorem file_transfer_loop_returns (path : Path) :
    ∀ (fuel : Nat) (w w1 : World), file_transfer_loop fuel w path = Res.ret () w1 →
      ∃ (w0 : World) (l0 : Link), Serves path w w0 ∧
        rxsize w0.le w0.link 0 = some ((0, 0), l0) ∧
        w1 = { w0 with link := l0, log := w0.log ++ [Msg.zero_size] } := by
  intro fuel
  induction fuel with
  | zero =>
    intro w w1 h
    simp [file_transfer_loop] at h
  | succ f ih =>
    intro w w1 h
    unfold file_transfer_loop at h
    cases hrx : rxsize w.le w.link 0 with
    | none =>
      rw [hrx] at h
      cases h
    | some x =>
      obtain ⟨⟨ret, sz⟩, l1⟩ := x
      rw [hrx] at h
      by_cases hret : ret ≠ 0
      · simp only [hret, ne_eq, not_false_eq_true, if_true] at h
        obtain ⟨w0, l0, hs, h0, hw⟩ := ih _ w1 h
        exact ⟨w0, l0, Serves.warned w w0 ret sz l1 hrx hret hs, h0, hw⟩
      · have hr0 : ret = 0 := not_not.mp hret
        subst hr0
        by_cases hsz : sz = 0
        · subst hsz
          simp only [ne_eq, not_true_eq_false, if_false, if_true] at h
          injection h with _ hw
          exact ⟨w, l1, Serves.here w, hrx, hw.symm⟩
        · simp only [ne_eq, not_true_eq_false, if_false, hsz] at h
          cases hwf : write_file f
              (backup_file { w with link := l1, log := w.log ++ [Msg.start_receiving sz] } path)
              sz path with
          | ret a w2 =>
            rw [hwf] at h
            obtain ⟨w0, l0, hs, h0, hw⟩ := ih w2 w1 h
            exact ⟨w0, l0, Serves.written w w2 w0 sz l1 f hrx hsz hwf hs, h0, hw⟩
          | blocked w2 =>
            rw [hwf] at h
            cases h
          | undef =>
            rw [hwf] at h
            cases h
          | nofuel =>
            rw [hwf] at h
            cases h

/-- C4, amended: when a header read fails or is short (`recv` returns -1 or between 1 and
`sizeof(long) - 1` bytes, so that `rxsize` returns non-zero), the pass of
`file_transfer_loop` calls neither `backup_file` nor `write_file`, logs a warning and goes
on with the next pass on the same Link, the filesystem untouched. The loop returns to
the accept loop of `receive` only when `rxsize` returns 0 with a size of 0: every run of
`file_transfer_loop` that returns does so in a pass of that run (`Serves`) with that
result of `rxsize`, the world in which the pass began advanced on the Link and the
disconnect logged. -/
theorem header_error_keeps_serving (fuel : Nat) (w : World) (path : Path) (r : IoRes)
    (l1 : Link) (h : w.link.read SIZEOF_LONG = some (r, l1))
    (hshort : r = IoRes.err ∨
      ∃ bs, r = IoRes.got bs ∧ 1 ≤ bs.length ∧ bs.length < SIZEOF_LONG) :
    (∃ ret sz, rxsize w.le w.link 0 = some ((ret, sz), l1) ∧ ret ≠ 0) ∧
      file_transfer_loop (fuel + 1) w path =
        file_transfer_loop fuel { w with link := l1, log := w.log ++ [Msg.warn_size] } path ∧
      ∀ (f : Nat) (v w1 : World), file_transfer_loop f v path = Res.ret () w1 →
        ∃ (w0 : World) (l0 : Link), Serves path v w0 ∧
          rxsize w0.le w0.link 0 = some ((0, 0), l0) ∧
          w1 = { w0 with link := l0, log := w0.log ++ [Msg.zero_size] } := by
  rcases hshort with he | ⟨bs, hb, h1, h8⟩
  · subst he
    have hrx : rxsize w.le w.link 0 = some ((-1, 0), l1) := by
      simp [rxsize, h]
    refine ⟨⟨-1, 0, hrx, by decide⟩, ?_, file_transfer_loop_returns path⟩
    simp [file_transfer_loop, hrx]
  · subst hb
    have hne : bs.length ≠ SIZEOF_LONG := by omega
    have hrx : rxsize w.le w.link 0 = some (((bs.length : Int), 0), l1) := by
      simp [rxsize, h, hne]
    have hnz : (bs.length : Int) ≠ 0 := by omega
    refine ⟨⟨_, 0, hrx, hnz⟩, ?_, file_transfer_loop_returns path⟩
    simp only [file_transfer_loop, hrx, hnz, ne_eq, not_false_eq_true, if_true]

/-- The statement `header_error_keeps_serving` at a Link whose first burst holds 3 bytes. -/
theorem header_error_keeps_serving_witness :
    (∃ ret sz, rxsize true ⟨[Seg.bytes [9, 9, 9]], false⟩ 0 = some ((ret, sz), ⟨[], false⟩) ∧
        ret ≠ 0) ∧
      file_transfer_loop (1 + 1) ⟨⟨[Seg.bytes [9, 9, 9]], false⟩, FS.empty, 0o755, 0o022, true, []⟩
          "a.txt".toList =
        file_transfer_loop 1 ⟨⟨[], false⟩, FS.empty, 0o755, 0o022, true, [] ++ [Msg.warn_size]⟩
          "a.txt".toList ∧
      ∀ (f : Nat) (v w1 : World), file_transfer_loop f v "a.txt".toList = Res.ret () w1 →
        ∃ (w0 : World) (l0 : Link), Serves "a.txt".toList v w0 ∧
          rxsize w0.le w0.link 0 = some ((0, 0), l0) ∧
          w1 = { w0 with link := l0, log := w0.log ++ [Msg.zero_size] } :=
  header_error_keeps_serving 1 ⟨⟨[Seg.bytes [9, 9, 9]], false⟩, FS.empty, 0o755, 0o022, true, []⟩
    "a.txt".toList (IoRes.got [9, 9, 9]) ⟨[], false⟩ (by decide)
    (Or.inr ⟨[9, 9, 9], rfl, by decide, by decide⟩)

/-- C8: when `file_transfer_loop` reads a complete header whose value is 0 it returns;
the world it returns differs from the one before the read only in the Link position and
the logged line, so the filesystem (Destination File and backup included) is unchanged. -/
theorem zero_header_ends_link (fuel : Nat) (w : World) (path : Path) (hdr : List Nat)
    (l1 : Link) (h : w.link.read SIZEOF_LONG = some (IoRes.got hdr, l1))
    (hlen : hdr.length = SIZEOF_LONG) (hz : ntohl w.le (mem_to_long w.le hdr) = 0) :
    file_transfer_loop (fuel + 1) w path =
      Res.ret () { w with link := l1, log := w.log ++ [Msg.zero_size] } := by
  simp [file_transfer_loop, rxsize, h, hlen, hz]

/-- The statement `zero_header_ends_link` at a Link holding eight zero bytes. -/
theorem zero_header_ends_link_witness :
    Link.read ⟨[Seg.bytes [0, 0, 0, 0, 0, 0, 0, 0]], true⟩ SIZEOF_LONG
        = some (IoRes.got [0, 0, 0, 0, 0, 0, 0, 0], ⟨[], true⟩) ∧
      file_transfer_loop (0 + 1)
          ⟨⟨[Seg.bytes [0, 0, 0, 0, 0, 0, 0, 0]], true⟩, FS.empty, 0o755, 0o022, true, []⟩ "a.txt".toList =
        Res.ret () ⟨⟨[], true⟩, FS.empty, 0o755, 0o022, true, [] ++ [Msg.zero_size]⟩ :=
  ⟨by decide,
    zero_header_ends_link 0
      ⟨⟨[Seg.bytes [0, 0, 0, 0, 0, 0, 0, 0]], true⟩, FS.empty, 0o755, 0o022, true, []⟩ "a.txt".toList
      [0, 0, 0, 0, 0, 0, 0, 0] ⟨[], true⟩ (by decide) (by decide) (by decide)⟩

/-- C10, at a failing input: with directory `out` present and `out/sub` missing,
`create_file` on `out/sub/a.txt` returns -1 and leaves the filesystem as it was: the
first `mkdir("out/")` of `create_path` fails on the existing directory and ends the
loop before `out/sub/` is tried. -/
theorem create_file_fails_under_existing_dir (fuel : Nat) :
    create_file (fuel + 1) ⟨⟨[], false⟩, FS.empty.set "out".toList Node.dir, 0o755, 0o022, true, []⟩
        "out/sub/a.txt".toList =
      Res.ret (-1) ⟨⟨[], false⟩, FS.empty.set "out".toList Node.dir, 0o755, 0o022, true, []⟩ := by
  rfl

/-! ## A payload cut short -/

theorem FS.set_same (fs : FS) (k : Path) (n : Node) : (fs.set k n) k = some n := by
  simp [FS.set]

theorem FS.set_set (fs : FS) (k : Path) (a b : Node) : (fs.set k a).set k b = fs.set k b := by
  funext q
  simp only [FS.set]
  split <;> rfl

theorem open_create_ok (fs fs1 : FS) (p : Path) (mode umask : Nat)
    (h : sys_open_create fs p mode umask = Except.ok fs1) : ∃ m, fs1 p = some (Node.file [] m) := by
  unfold sys_open_create at h
  split at h
  · cases h
  · split at h
    · split at h
      · cases h
      · split at h
        · cases h
        · split at h
          · cases h
            exact ⟨_, FS.set_same _ _ _⟩
          · cases h
        · cases h
          exact ⟨_, FS.set_same _ _ _⟩
    · split at h <;> cases h

theorem write_loop_at_eof (sz : Nat) (path : Path) (fuel : Nat) :
    ∀ (w : World) (recvd : Nat) (d : List Nat) (m : Nat), w.link = ⟨[], false⟩ → recvd < sz →
      w.fs path = some (Node.file d m) → write_loop fuel w sz recvd path = Res.nofuel := by
  induction fuel with
  | zero => intros; rfl
  | succ n ih =>
    intro w recvd d m hl hlt hfs
    unfold write_loop
    simp only [hlt, if_true, hl, Link.read, sock_read, sys_append, hfs]
    exact ih _ _ (d ++ []) m rfl (by simpa using hlt) (FS.set_same _ _ _)

theorem write_loop_short_burst (sz : Nat) (path : Path) (fuel : Nat) (w : World) (recvd : Nat)
    (bs d : List Nat) (m : Nat) (hl : w.link = ⟨[Seg.bytes bs], false⟩)
    (hlt : recvd + bs.length < sz) (hfs : w.fs path = some (Node.file d m)) :
    write_loop fuel w sz recvd path = Res.nofuel := by
  cases fuel with
  | zero => rfl
  | succ n =>
    have h1 : recvd < sz := by omega
    unfold write_loop
    by_cases hb : bs = []
    · simp only [h1, if_true, hl, Link.read, sock_read, hb, sys_append, hfs]
      exact write_loop_at_eof sz path n _ _ (d ++ []) m rfl (by simpa using h1) (FS.set_same _ _ _)
    · have h2 : bs.length ≤ sz - recvd := by omega
      simp only [h1, if_true, hl, Link.read, sock_read, hb, if_false, h2, sys_append, hfs]
      exact write_loop_at_eof sz path n _ _ (d ++ bs) m rfl hlt (FS.set_same _ _ _)

theorem write_file_short_burst (fuel : Nat) (w : World) (sz : Nat) (path : Path) (bs : List Nat)
    (fs1 : FS) (hl : w.link = ⟨[Seg.bytes bs], false⟩) (hlt : bs.length < sz)
    (ho : sys_open_create w.fs path w.fmode w.umask = Except.ok fs1) :
    write_file fuel w sz path = Res.nofuel := by
  cases fuel with
  | zero => rfl
  | succ n =>
    obtain ⟨m, hm⟩ := open_create_ok _ _ _ _ _ ho
    have hc : create_file (n + 1) w path = Res.ret DEST_FD { w with fs := fs1 } := by
      simp [create_file, ho]
    have hw : write_loop (n + 1) { w with fs := fs1 } sz 0 path = Res.nofuel :=
      write_loop_short_burst sz path (n + 1) _ 0 bs [] m hl (by simpa using hlt) hm
    simp [write_file, hc, hw, DEST_FD]

/-- C5, at a failing input: the header declares 5 bytes and the peer closes after 2.
Whatever the fuel, neither `write_file` nor `file_transfer_loop` returns: once the
stream has ended every `splice` returns 0 and `recvd` stays below `sz`. -/
theorem write_file_spins_on_short_payload (fuel : Nat) :
    write_file fuel ⟨⟨[Seg.bytes [1, 2]], false⟩, FS.empty, 0o755, 0o022, true, []⟩ 5 "a.txt".toList
        = Res.nofuel ∧
      file_transfer_loop fuel
          ⟨⟨[Seg.bytes [0, 0, 0, 5, 0, 0, 0, 0, 1, 2]], false⟩, FS.empty, 0o755, 0o022, true, []⟩
          "a.txt".toList
        = Res.nofuel := by
  constructor
  · exact write_file_short_burst fuel _ 5 _ [1, 2] _ rfl (by decide) rfl
  · cases fuel with
    | zero => rfl
    | succ n =>
      have hr : rxsize true ⟨[Seg.bytes [0, 0, 0, 5, 0, 0, 0, 0, 1, 2]], false⟩ 0
          = some ((0, 5), ⟨[Seg.bytes [1, 2]], false⟩) := by decide
      have hw := write_file_short_burst n
        (backup_file ⟨⟨[Seg.bytes [1, 2]], false⟩, FS.empty, 0o755, 0o022, true, [Msg.start_receiving 5]⟩
          "a.txt".toList) 5 "a.txt".toList [1, 2] _ rfl (by decide) rfl
      simp only [file_transfer_loop, hr, List.nil_append]
      rw [hw]
      rfl

/-! ## Event filtering in the transmitter -/

theorem strcmp_chars_eq_zero (a : List Char) : ∀ b : List Char, strcmp_chars a b = 0 → a = b := by
  induction a with
  | nil =>
    intro b h
    cases b with
    | nil => rfl
    | cons y ys => simp [strcmp_chars] at h
  | cons x xs ih =>
    intro b h
    cases b with
    | nil => simp [strcmp_chars] at h
    | cons y ys =>
      unfold strcmp_chars at h
      split at h
      · rename_i hxy
        rw [hxy, ih ys h]
      · split at h <;> simp at h

theorem drain_events_sent_selected (args1 : List Char) (path : Path) (evs : List InotifyEvent) :
    ∀ (w : TxWorld) (ev : InotifyEvent), ev ∈ (drain_events args1 path evs w).2 →
      event_selected args1 ev = true := by
  induction evs with
  | nil =>
    intro w ev h
    simp [drain_events] at h
  | cons e es ih =>
    intro w ev h
    unfold drain_events at h
    split at h
    · rename_i hsel
      split at h
      · simp at h
        rw [h]
        exact hsel
      · rename_i w1 hs
        simp only [List.mem_cons] at h
        rcases h with h | h
        · rw [h]
          exact hsel
        · exact ih w1 ev h
    · exact ih w ev h

/-- C9: for every event of a buffer drained by `start_transmitter`, if the C string in
its name field differs from the configured filename `args[1]`, `send_file` is not called
for it; and if its mask is a non-empty subset of `IN_DELETE` and `IN_DELETE_SELF`,
`send_file` is not called for it either, whatever its name. -/
theorem unrelated_and_delete_events_not_sent (args1 : List Char) (path : Path)
    (evs : List InotifyEvent) (w : TxWorld) (ev : InotifyEvent) :
    (cstr ev.name ≠ cstr args1 → ev ∉ (drain_events args1 path evs w).2) ∧
      ((ev.mask = IN_DELETE ∨ ev.mask = IN_DELETE_SELF ∨ ev.mask = IN_DELETE ||| IN_DELETE_SELF) →
        ev ∉ (drain_events args1 path evs w).2) := by
  constructor
  · intro hne hmem
    have hsel := drain_events_sent_selected args1 path evs w ev hmem
    simp only [event_selected, Bool.and_eq_true, decide_eq_true_eq] at hsel
    exact hne (strcmp_chars_eq_zero _ _ hsel.2).symm
  · intro hmask hmem
    have hsel := drain_events_sent_selected args1 path evs w ev hmem
    simp only [event_selected, Bool.and_eq_true, decide_eq_true_eq] at hsel
    apply hsel.1.1
    rcases hmask with h | h | h <;> rw [h] <;> decide

/-- The statement `unrelated_and_delete_events_not_sent` on a buffer of three events: a
write-close of `b.txt`, a write-close of `a.txt` and a delete of `a.txt`, `a.txt` being
watched. -/
theorem unrelated_and_delete_events_not_sent_witness :
    (⟨0x8, "b.txt".toList ++ [NUL, NUL, NUL]⟩ : InotifyEvent) ∉
        (drain_events "a.txt".toList "w/a.txt".toList
          [⟨0x8, "b.txt".toList ++ [NUL, NUL, NUL]⟩, ⟨0x8, "a.txt".toList ++ [NUL, NUL, NUL]⟩,
            ⟨0x200, "a.txt".toList ++ [NUL, NUL, NUL]⟩]
          ⟨FS.empty.set "w/a.txt".toList (Node.file [104, 105] 0o644), [], true, true, []⟩).2 ∧
      (⟨0x200, "a.txt".toList ++ [NUL, NUL, NUL]⟩ : InotifyEvent) ∉
        (drain_events "a.txt".toList "w/a.txt".toList
          [⟨0x8, "b.txt".toList ++ [NUL, NUL, NUL]⟩, ⟨0x8, "a.txt".toList ++ [NUL, NUL, NUL]⟩,
            ⟨0x200, "a.txt".toList ++ [NUL, NUL, NUL]⟩]
          ⟨FS.empty.set "w/a.txt".toList (Node.file [104, 105] 0o644), [], true, true, []⟩).2 :=
  ⟨(unrelated_and_delete_events_not_sent "a.txt".toList "w/a.txt".toList
      [⟨0x8, "b.txt".toList ++ [NUL, NUL, NUL]⟩, ⟨0x8, "a.txt".toList ++ [NUL, NUL, NUL]⟩,
        ⟨0x200, "a.txt".toList ++ [NUL, NUL, NUL]⟩]
      ⟨FS.empty.set "w/a.txt".toList (Node.file [104, 105] 0o644), [], true, true, []⟩
      ⟨0x8, "b.txt".toList ++ [NUL, NUL, NUL]⟩).1 (by decide),
    (unrelated_and_delete_events_not_sent "a.txt".toList "w/a.txt".toList
      [⟨0x8, "b.txt".toList ++ [NUL, NUL, NUL]⟩, ⟨0x8, "a.txt".toList ++ [NUL, NUL, NUL]⟩,
        ⟨0x200, "a.txt".toList ++ [NUL, NUL, NUL]⟩]
      ⟨FS.empty.set "w/a.txt".toList (Node.file [104, 105] 0o644), [], true, true, []⟩
      ⟨0x200, "a.txt".toList ++ [NUL, NUL, NUL]⟩).2 (by decide)⟩

/-! ## Files of 4 GiB -/

theorem send_file_emits_frame (w : TxWorld) (path : Path) (c : List Nat) (m : Nat)
    (hfs : w.fs path = some (Node.file c m)) (hm : m / 256 % 2 = 1) (hup : w.linkUp = true)
    (hc : c ≠ []) :
    send_file w path = TxRes.ret { w with out := w.out ++ frame w.le c,
                                          log := w.log ++ [Msg.transmitting path c.length] } := by
  have hpos : 0 < c.length := List.length_pos.mpr hc
  simp [send_file, sys_lstat, hfs, sys_open_rdonly, hm, txsize, hup, sys_sendfile, hpos, frame]

theorem rxsize_header_then_more (le po : Bool) (hdr t : List Nat) (segs : List Seg) (sz0 : Nat)
    (h : hdr.length = 8) (ht : t ≠ []) :
    rxsize le ⟨Seg.bytes (hdr ++ t) :: segs, po⟩ sz0
      = some ((0, ntohl le (mem_to_long le hdr)), ⟨Seg.bytes t :: segs, po⟩) := by
  have hne : hdr ≠ [] := by
    intro h0
    simp [h0] at h
  have hlen : ¬ (hdr.length + t.length ≤ 8) := by
    have := List.length_pos.mpr ht
    omega
  simp [rxsize, Link.read, sock_read, SIZEOF_LONG, hne, hlen, h, ht]

/-- C6, at the failing input of a watched file of 2 ^ 32 bytes: `send_file` returns
normally having put on the Link the header `txsize` writes for it followed by the
content; that header is eight zero bytes, and `rxsize` decodes it to the value 0, the
disconnect sentinel. -/
theorem send_file_4GiB_header_is_zero (le po : Bool) (path : Path) :
    ∃ w1, send_file ⟨FS.empty.set path (Node.file (List.replicate (2 ^ 32) 65) 0o644),
              [], true, le, []⟩ path = TxRes.ret w1 ∧
      w1.out = long_to_mem le 0 ++ List.replicate (2 ^ 32) 65 ∧
      rxsize le ⟨[Seg.bytes w1.out], po⟩ 0
        = some ((0, 0), ⟨[Seg.bytes (List.replicate (2 ^ 32) 65)], po⟩) := by
  have hne : List.replicate (2 ^ 32) 65 ≠ [] := by
    intro h
    have h1 := congrArg List.length h
    rw [List.length_replicate] at h1
    exact absurd h1 (by decide)
  refine ⟨_, send_file_emits_frame _ path (List.replicate (2 ^ 32) 65) 0o644
    (FS.set_same _ _ _) (by decide) rfl hne, ?_, ?_⟩
  · simp only [frame, List.length_replicate, htonl_4GiB, List.nil_append]
  · simp only [frame, List.length_replicate, htonl_4GiB, List.nil_append]
    rw [rxsize_header_then_more le po _ _ _ _ (long_to_mem_length _ _) hne]
    have h0 : ntohl le (mem_to_long le (long_to_mem le 0)) = 0 := by
      have := decode_encode le (2 ^ 32)
      rw [htonl_4GiB] at this
      exact this
    rw [h0]

/-- C1, at the failing input of a file `F` of 2 ^ 32 bytes: `send_file` transmits `F`
once over a fresh Link and `file_transfer_loop` serves it, every system call moving all
it is asked to move. The loop reads the header as 0, reports a disconnect and returns:
the filesystem of the receiver is as it was before, the Destination File does not
receive the bytes of `F`, which are left unread on the Link. -/
theorem transfer_of_4GiB_file_is_dropped (le : Bool) (src dest : Path) (fs0 : FS)
    (fmode umask : Nat) (fuel : Nat) :
    file_transfer_loop (fuel + 1)
        ⟨⟨[Seg.bytes (send_file ⟨FS.empty.set src (Node.file (List.replicate (2 ^ 32) 65) 0o644),
              [], true, le, []⟩ src).world.out], true⟩, fs0, fmode, umask, le, []⟩ dest
      = Res.ret () ⟨⟨[Seg.bytes (List.replicate (2 ^ 32) 65)], true⟩, fs0, fmode, umask, le,
          [Msg.zero_size]⟩ := by
  obtain ⟨w1, h1, h2, h3⟩ := send_file_4GiB_header_is_zero le true src
  rw [h1]
  simp only [TxRes.world, file_transfer_loop, h3]
  rfl

/-! ## Successive transfers and the backup -/

theorem strip_slashes_of_last (p : Path) (h : p.getLast? ≠ some PATH_SEP) : strip_slashes p = p := by
  unfold strip_slashes
  cases hr : p.reverse with
  | nil => simp [List.reverse_eq_nil_iff.mp hr]
  | cons c r =>
    have hp : p = (c :: r).reverse := by rw [← hr, List.reverse_reverse]
    have hc : c ≠ PATH_SEP := by
      intro hc
      apply h
      rw [hp]
      simp [hc]
    simp [List.dropWhile, hc]
    rw [hp]
    simp

theorem bakpath_last (p : Path) : (bakpath p).getLast? ≠ some PATH_SEP := by
  simp [bakpath, PATH_SEP]

theorem parent_bakpath (p : Path) (h : p.getLast? ≠ some PATH_SEP) :
    parent (bakpath p) = parent p := by
  unfold parent
  rw [strip_slashes_of_last _ (bakpath_last p), strip_slashes_of_last _ h]
  simp [bakpath, PATH_SEP, List.dropWhile]

theorem bakpath_ne (p : Path) : bakpath p ≠ p := by
  intro h
  have := congrArg List.length h
  simp [bakpath] at this

theorem is_dir_iff (fs : FS) (k : Path) : fs.is_dir k = true ↔ k = [] ∨ fs k = some Node.dir := by
  cases k with
  | nil => simp [FS.is_dir]
  | cons c t =>
    cases h : fs (c :: t) with
    | none => simp [FS.is_dir, h]
    | some n => cases n <;> simp [FS.is_dir, h]

theorem frame_ne_nil (le : Bool) (c : List Nat) : frame le c ≠ [] := by
  intro h
  have := congrArg List.length h
  simp [frame, long_to_mem_length] at this

theorem frames_ne_nil (le : Bool) (c : List Nat) (cs : List (List Nat)) :
    frames le (c :: cs) ≠ [] := by
  simp [frames, frame_ne_nil]

theorem link_read_skip (rest : List Seg) (po : Bool) (n : Nat) :
    Link.read ⟨Seg.bytes [] :: rest, po⟩ n = Link.read ⟨rest, po⟩ n := by
  simp [Link.read, sock_read]

theorem link_read_whole (bs : List Nat) (rest : List Seg) (po : Bool) (n : Nat) (hbs : bs ≠ [])
    (hn : bs.length ≤ n) :
    Link.read ⟨Seg.bytes bs :: rest, po⟩ n = some (IoRes.got bs, ⟨rest, po⟩) := by
  simp [Link.read, sock_read, hbs, hn]

theorem link_read_more (c t : List Nat) (rest : List Seg) (po : Bool) (hc : c ≠ [])
    (ht : t ≠ []) :
    Link.read ⟨Seg.bytes (c ++ t) :: rest, po⟩ c.length
      = some (IoRes.got c, ⟨Seg.bytes t :: rest, po⟩) := by
  simp [Link.read, sock_read, hc, ht]

theorem sock_read_quiet (po : Bool) (n : Nat) (s : List Seg)
    (hq : ∀ x ∈ s, x = Seg.bytes []) :
    sock_read s po n = if po then none else some (IoRes.got [], []) := by
  induction s with
  | nil => rfl
  | cons x rest ih =>
    have hx : x = Seg.bytes [] := hq x (List.mem_cons_self _ _)
    subst hx
    simp only [sock_read, if_true]
    exact ih (fun y hy => hq y (List.mem_cons_of_mem _ hy))

theorem rxsize_heads (le po : Bool) (sz0 : Nat) (hdr : List Nat) (hlen : hdr.length = 8)
    (s s1 : List Seg) (h : Heads hdr s s1) :
    rxsize le ⟨s, po⟩ sz0 = some ((0, ntohl le (mem_to_long le hdr)), ⟨s1, po⟩) := by
  induction h with
  | skip rest s1 _ ih =>
    rw [← ih]
    simp only [rxsize, link_read_skip]
  | whole rest => exact rxsize_whole_segment le po hdr rest sz0 hlen
  | more t rest ht => exact rxsize_header_then_more le po hdr t rest sz0 hlen ht

theorem FS.set_self (fs : FS) (k : Path) (n : Node) (h : fs k = some n) : fs.set k n = fs := by
  funext q
  simp only [FS.set]
  split
  · rename_i hq
    rw [hq, h]
  · rfl

theorem write_loop_feeds (path : Path) (po : Bool) (c : List Nat) (s s1 : List Seg)
    (h : Feeds c s s1) :
    ∀ (fuel : Nat) (w : World) (recvd : Nat) (d : List Nat) (m : Nat), w.link = ⟨s, po⟩ →
      w.fs path = some (Node.file d m) → s.length < fuel →
      ∃ w1, write_loop fuel w (recvd + c.length) recvd path = Res.ret true w1 ∧
        w1.link = ⟨s1, po⟩ ∧ w1.fs = w.fs.set path (Node.file (d ++ c) m) ∧
        w1.fmode = w.fmode ∧ w1.umask = w.umask ∧ w1.le = w.le ∧ w1.log = w.log := by
  induction h with
  | done s =>
    intro fuel w recvd d m hl hfs hf
    cases fuel with
    | zero => omega
    | succ f =>
      refine ⟨w, ?_, hl, ?_, rfl, rfl, rfl, rfl⟩
      · simp [write_loop]
      · rw [List.append_nil, FS.set_self _ _ _ hfs]
  | skip c rest s1 hc _ ih =>
    intro fuel w recvd d m hl hfs hf
    simp only [List.length_cons] at hf
    obtain ⟨w1, hrun, h1, h2, h3, h4, h5, h6⟩ :=
      ih fuel { w with link := ⟨rest, po⟩ } recvd d m rfl hfs (by omega)
    refine ⟨w1, ?_, h1, h2, h3, h4, h5, h6⟩
    cases fuel with
    | zero => omega
    | succ f =>
      have hlt : recvd < recvd + c.length := by
        have := List.length_pos.mpr hc
        omega
      unfold write_loop at hrun ⊢
      simp only [hlt, if_true] at hrun ⊢
      rw [hl, link_read_skip]
      cases hr : Link.read ⟨rest, po⟩ (recvd + c.length - recvd) with
      | none =>
        rw [hr] at hrun
        cases hrun
      | some x =>
        obtain ⟨r, l1⟩ := x
        rw [hr] at hrun
        cases r with
        | err => exact hrun
        | got bs => exact hrun
  | whole bs c rest s1 hbs _ ih =>
    intro fuel w recvd d m hl hfs hf
    simp only [List.length_cons] at hf
    cases fuel with
    | zero => omega
    | succ f =>
      have hpos := List.length_pos.mpr hbs
      have hlt : recvd < recvd + (bs ++ c).length := by
        rw [List.length_append]
        omega
      have hread : w.link.read (recvd + (bs ++ c).length - recvd)
          = some (IoRes.got bs, ⟨rest, po⟩) := by
        rw [hl]
        exact link_read_whole bs rest po _ hbs (by rw [List.length_append]; omega)
      obtain ⟨w1, hrun, h1, h2, h3, h4, h5, h6⟩ :=
        ih f { w with link := ⟨rest, po⟩, fs := w.fs.set path (Node.file (d ++ bs) m) }
          (recvd + bs.length) (d ++ bs) m rfl (FS.set_same _ _ _)
          (by omega)
      refine ⟨w1, ?_, h1, ?_, h3, h4, h5, h6⟩
      · unfold write_loop
        simp only [hlt, if_true, hread, sys_append, hfs]
        have e : recvd + (bs ++ c).length = recvd + bs.length + c.length := by
          rw [List.length_append]
          omega
        rw [e]
        exact hrun
      · rw [h2]
        simp only [FS.set_set, List.append_assoc]
  | more c t rest hc ht =>
    intro fuel w recvd d m hl hfs hf
    simp only [List.length_cons] at hf
    have hpos := List.length_pos.mpr hc
    cases fuel with
    | zero => omega
    | succ f =>
      cases f with
      | zero => omega
      | succ g =>
        have hlt : recvd < recvd + c.length := by omega
        have hread : w.link.read (recvd + c.length - recvd)
            = some (IoRes.got c, ⟨Seg.bytes t :: rest, po⟩) := by
          rw [hl, Nat.add_sub_cancel_left]
          exact link_read_more c t rest po hc ht
        refine ⟨{ w with link := ⟨Seg.bytes t :: rest, po⟩,
                         fs := w.fs.set path (Node.file (d ++ c) m) }, ?_, rfl, rfl, rfl, rfl,
          rfl, rfl⟩
        unfold write_loop
        simp only [hlt, if_true, hread, sys_append, hfs]
        simp [write_loop]

theorem heads_length (hdr : List Nat) (s s1 : List Seg) (h : Heads hdr s s1) :
    s1.length ≤ s.length := by
  induction h with
  | skip rest s1 _ ih => simp only [List.length_cons]; omega
  | whole rest => simp only [List.length_cons]; omega
  | more t rest _ => simp only [List.length_cons]; omega

theorem feeds_length (c : List Nat) (s s1 : List Seg) (h : Feeds c s s1) :
    s1.length ≤ s.length := by
  induction h with
  | done s => exact Nat.le_refl _
  | skip c rest s1 _ _ ih => simp only [List.length_cons]; omega
  | whole bs c rest s1 _ _ ih => simp only [List.length_cons]; omega
  | more c t rest _ _ => simp only [List.length_cons]; omega

theorem write_file_feeds (fuel : Nat) (w : World) (path : Path) (po : Bool) (c : List Nat)
    (s s1 : List Seg) (hfeed : Feeds c s s1) (hl : w.link = ⟨s, po⟩) (hf : s.length < fuel)
    (hp : path ≠ []) (hlast : path.getLast? ≠ some PATH_SEP)
    (hdir : w.fs.is_dir (parent path) = true) (hnone : w.fs path = none) :
    ∃ w1, write_file fuel w c.length path = Res.ret () w1 ∧ w1.link = ⟨s1, po⟩ ∧
      w1.fs = w.fs.set path (Node.file c (w.fmode % 4096)) ∧ w1.fmode = w.fmode ∧
      w1.umask = w.umask ∧ w1.le = w.le := by
  cases fuel with
  | zero => omega
  | succ f =>
    have ho : sys_open_create w.fs path w.fmode w.umask
        = Except.ok (w.fs.set path
            (Node.file [] (w.fmode % 4096 &&& (4095 - w.umask % 4096)))) := by
      simp [sys_open_create, hp, hdir, hlast, hnone]
    have hcf : create_file (f + 1) w path
        = Res.ret DEST_FD { w with fs := (w.fs.set path
            (Node.file [] (w.fmode % 4096 &&& (4095 - w.umask % 4096)))) } := by
      simp [create_file, ho]
    obtain ⟨w1, hrun, h1, h2, h3, h4, h5, h6⟩ := write_loop_feeds path po c s s1 hfeed (f + 1)
      { w with fs := (w.fs.set path
          (Node.file [] (w.fmode % 4096 &&& (4095 - w.umask % 4096)))) }
      0 [] _ hl (FS.set_same _ _ _) hf
    rw [Nat.zero_add] at hrun
    simp only [FS.set_set, List.nil_append] at h2
    have hch : sys_chmod w1.fs path w1.fmode
        = Except.ok (w.fs.set path (Node.file c (w.fmode % 4096))) := by
      rw [h2, h3]
      simp [sys_chmod, FS.set_same, FS.set_set]
    refine ⟨{ w1 with fs := w.fs.set path (Node.file c (w.fmode % 4096)),
                      log := w1.log ++ [Msg.received c.length path] }, ?_, h1, rfl, h3, h4, h5⟩
    simp [write_file, hcf, DEST_FD, hrun, hch]

theorem backup_file_spec (w : World) (path : Path) (hw : Writable w.fs path) :
    (backup_file w path).link = w.link ∧ (backup_file w path).fmode = w.fmode ∧
      (backup_file w path).le = w.le ∧ (backup_file w path).umask = w.umask ∧
      (backup_file w path).fs path = none ∧
      (backup_file w path).fs.is_dir (parent path) = true ∧
      ∀ c mode, (backup_file w path).fs.set path (Node.file c (mode % 4096))
        = transfer_fs path mode w.fs c := by
  obtain ⟨hp, hlast, hdir, hnd, hbd⟩ := hw
  cases hfs : w.fs path with
  | none =>
    have hb : backup_file w path
        = { w with log := w.log ++ [Msg.info_rename path (bakpath path)] } := by
      simp [backup_file, sys_rename, hfs]
    rw [hb]
    simp [hfs, hdir, transfer_fs]
  | some n =>
    cases n with
    | dir => exact absurd hfs hnd
    | file d m =>
      have hpd : w.fs.is_dir (parent (bakpath path)) = true := by
        rw [parent_bakpath path hlast]
        exact hdir
      have hb : backup_file w path
          = { w with fs := (w.fs.del path).set (bakpath path) (Node.file d m) } := by
        unfold backup_file sys_rename
        simp only [hfs, hpd, if_true]
      rw [hb]
      refine ⟨rfl, rfl, rfl, rfl, ?_, ?_, ?_⟩
      · simp [FS.set, FS.del, (bakpath_ne path).symm]
      · rcases (is_dir_iff _ _).mp hdir with h0 | hd
        · exact (is_dir_iff _ _).mpr (Or.inl h0)
        · apply (is_dir_iff _ _).mpr
          right
          have h1 : parent path ≠ bakpath path := by
            intro h
            rw [h] at hd
            exact hbd hd
          have h2 : parent path ≠ path := by
            intro h
            rw [h] at hd
            exact hnd hd
          simp [FS.set, FS.del, h1, h2, hd]
      · intro c mode
        simp [transfer_fs, hfs]

theorem transfer_fs_apply (path : Path) (mode : Nat) (fs : FS) (c : List Nat) (q : Path) :
    transfer_fs path mode fs c q =
      if q = path then some (Node.file c (mode % 4096))
      else if q = bakpath path then
        (match fs path with
          | some (Node.file d m) => some (Node.file d m)
          | _ => fs (bakpath path))
      else fs q := by
  cases hfs : fs path with
  | none =>
    simp only [transfer_fs, hfs, FS.set]
    split
    · rfl
    · split
      · rename_i h
        rw [h]
      · rfl
  | some n =>
    cases n with
    | dir =>
      simp only [transfer_fs, hfs, FS.set]
      split
      · rfl
      · split
        · rename_i h
          rw [h]
        · rfl
    | file d m =>
      simp only [transfer_fs, hfs, FS.set, FS.del]
      split
      · rfl
      · split
        · rfl
        · rfl

theorem transfer_fs_writable (path : Path) (mode : Nat) (fs : FS) (c : List Nat)
    (hw : Writable fs path) : Writable (transfer_fs path mode fs c) path := by
  obtain ⟨hp, hlast, hdir, hnd, hbd⟩ := hw
  refine ⟨hp, hlast, ?_, ?_, ?_⟩
  · rcases (is_dir_iff _ _).mp hdir with h0 | hd
    · exact (is_dir_iff _ _).mpr (Or.inl h0)
    · apply (is_dir_iff _ _).mpr
      right
      have h1 : parent path ≠ bakpath path := by
        intro h
        rw [h] at hd
        exact hbd hd
      have h2 : parent path ≠ path := by
        intro h
        rw [h] at hd
        exact hnd hd
      rw [transfer_fs_apply]
      simp [h1, h2, hd]
  · rw [transfer_fs_apply]
    simp
  · rw [transfer_fs_apply]
    simp only [bakpath_ne path, if_false, if_true]
    cases hfs : fs path with
    | none => simpa using hbd
    | some n =>
      cases n with
      | dir => simpa using hbd
      | file d m => simp

theorem serve_one (fuel : Nat) (w : World) (path : Path) (po : Bool) (c : List Nat)
    (s s1 s2 : List Seg) (hl : w.link = ⟨s, po⟩) (hc : c ≠ []) (hsz : c.length < 2 ^ 32)
    (hhead : Heads (long_to_mem w.le (htonl w.le c.length)) s s1) (hfeed : Feeds c s1 s2)
    (hf : s1.length < fuel) (hw : Writable w.fs path) :
    ∃ w1, file_transfer_loop (fuel + 1) w path = file_transfer_loop fuel w1 path ∧
      w1.link = ⟨s2, po⟩ ∧ w1.fs = transfer_fs path w.fmode w.fs c ∧
      w1.fmode = w.fmode ∧ w1.le = w.le ∧ w1.umask = w.umask := by
  have hpos : 0 < c.length := List.length_pos.mpr hc
  have hrx : rxsize w.le w.link 0 = some ((0, c.length), ⟨s1, po⟩) := by
    rw [hl, rxsize_heads w.le po 0 _ (long_to_mem_length _ _) s s1 hhead, decode_encode,
      Nat.mod_eq_of_lt hsz]
  obtain ⟨h1, h2, h3, h4, h5, h6, h7⟩ := backup_file_spec
    { w with link := ⟨s1, po⟩, log := w.log ++ [Msg.start_receiving c.length] } path hw
  obtain ⟨w1, hrun, g1, g2, g3, g4, g5⟩ := write_file_feeds fuel
    (backup_file { w with link := ⟨s1, po⟩, log := w.log ++ [Msg.start_receiving c.length] } path)
    path po c s1 s2 hfeed h1 hf hw.1 hw.2.1 h6 h5
  have hne : c.length ≠ 0 := by omega
  refine ⟨w1, ?_, g1, ?_, ?_, ?_, ?_⟩
  · simp only [file_transfer_loop, hrx, ne_eq, not_true_eq_false, if_false, hne]
    rw [hrun]
  · rw [g2, h2]
    exact h7 c w.fmode
  · rw [g3, h2]
  · rw [g5, h3]
  · rw [g4, h4]

theorem quiet_pass (fuel : Nat) (w : World) (path : Path) (po : Bool) (s : List Seg)
    (hl : w.link = ⟨s, po⟩) (hq : ∀ x ∈ s, x = Seg.bytes []) :
    ∃ w1, file_transfer_loop (fuel + 1) w path
        = (if po then Res.blocked w1 else Res.ret () w1) ∧ w1.fs = w.fs := by
  cases po with
  | true =>
    refine ⟨w, ?_, rfl⟩
    simp [file_transfer_loop, rxsize, Link.read, hl, sock_read_quiet true _ s hq]
  | false =>
    refine ⟨{ w with link := ⟨[], false⟩, log := w.log ++ [Msg.zero_size] }, ?_, rfl⟩
    simp [file_transfer_loop, rxsize, Link.read, hl, sock_read_quiet false _ s hq, SIZEOF_LONG]

theorem serve_all (path : Path) (le po : Bool) (cs : List (List Nat)) (s : List Seg)
    (h : Delivers le cs s) :
    ∀ (fuel : Nat) (w : World), w.link = ⟨s, po⟩ → w.le = le → Writable w.fs path →
      cs.length + s.length + 1 ≤ fuel →
      ∃ w1, file_transfer_loop fuel w path = (if po then Res.blocked w1 else Res.ret () w1) ∧
        w1.fs = cs.foldl (transfer_fs path w.fmode) w.fs := by
  induction h with
  | nil s hq =>
    intro fuel w hl _ _ hf
    obtain ⟨k, hk⟩ : ∃ k, fuel = k + 1 := ⟨fuel - 1, by omega⟩
    rw [hk]
    exact quiet_pass k w path po s hl hq
  | cons c cs s s1 s2 hc hsz hhead hfeed _ ih =>
    intro fuel w hl hle hw hf
    simp only [List.length_cons] at hf
    have hl1 := heads_length _ s s1 hhead
    have hl2 := feeds_length c s1 s2 hfeed
    obtain ⟨k, hk⟩ : ∃ k, fuel = k + 1 := ⟨fuel - 1, by omega⟩
    rw [← hle] at hhead
    obtain ⟨w1, hstep, g1, g2, g3, g4, _⟩ :=
      serve_one k w path po c s s1 s2 hl hc hsz hhead hfeed (by omega) hw
    have hw1 : Writable w1.fs path := by
      rw [g2]
      exact transfer_fs_writable path w.fmode w.fs c hw
    obtain ⟨w2, hrun, hfs2⟩ := ih k w1 g1 (by rw [g4, hle]) hw1 (by omega)
    refine ⟨w2, ?_, ?_⟩
    · rw [hk, hstep, hrun]
    · rw [hfs2, g2, g3]
      rfl

/-- Below 4 GiB the round trip of C1 holds: a non-empty file `F` of fewer than 2 ^ 32
bytes that `send_file` transmits once arrives as the Destination File, byte for byte,
with the permission bits of `fmode`, whatever the file mode creation mask. -/
theorem round_trip_below_4GiB (le po : Bool) (src dest : Path) (F : List Nat)
    (m fmode umask : Nat) (txfs fs0 : FS) (log0 : List Msg) (fuel : Nat)
    (hsrc : txfs src = some (Node.file F m))
    (hm : m / 256 % 2 = 1) (hF : F ≠ []) (hsz : F.length < 2 ^ 32) (hw : Writable fs0 dest) :
    ∃ w1, file_transfer_loop (fuel + 3)
          ⟨⟨[Seg.bytes (send_file ⟨txfs, [], true, le, []⟩ src).world.out], po⟩,
            fs0, fmode, umask, le, log0⟩ dest
        = (if po then Res.blocked w1 else Res.ret () w1) ∧
      w1.fs dest = some (Node.file F (fmode % 4096)) := by
  rw [send_file_emits_frame ⟨txfs, [], true, le, []⟩ src F m hsrc hm rfl hF]
  have hfeed : Feeds F [Seg.bytes F] [] := by
    have := Feeds.whole F [] [] [] hF (Feeds.done [])
    rwa [List.append_nil] at this
  have hdel : Delivers le [F] [Seg.bytes (frame le F)] :=
    Delivers.cons F [] _ [Seg.bytes F] [] hF hsz (Heads.more F [] hF) hfeed
      (Delivers.nil [] (fun x hx => by cases hx))
  obtain ⟨w1, hrun, hfs⟩ := serve_all dest le po [F] _ hdel (fuel + 3)
    ⟨⟨[Seg.bytes (frame le F)], po⟩, fs0, fmode, umask, le, log0⟩ rfl rfl hw
    (by simp only [List.length_cons, List.length_nil]; omega)
  refine ⟨w1, ?_, ?_⟩
  · simp only [TxRes.world, List.nil_append]
    exact hrun
  · rw [hfs]
    simp only [List.foldl_cons, List.foldl_nil]
    rw [transfer_fs_apply]
    simp

/-! ## A failed open in the transmitter, and connecting -/

/-- C11, at a failing input: the watched file is empty and not readable, so `lstat`
reports size 0 and `open` returns -1. The test after `open` looks at `ret`, which still
holds the 0 of `lstat`, and `send_file` returns normally, printing its `transmitting`
line, instead of ending the process through `fatal`. -/
theorem send_file_returns_after_failed_open (le : Bool) (path : Path) :
    sys_lstat (FS.empty.set path (Node.file [] 0o200)) path = some 0 ∧
      sys_open_rdonly (FS.empty.set path (Node.file [] 0o200)) path = -1 ∧
      send_file ⟨FS.empty.set path (Node.file [] 0o200), [], true, le, []⟩ path
        = TxRes.ret ⟨FS.empty.set path (Node.file [] 0o200), [], true, le,
            [Msg.transmitting path 0]⟩ := by
  refine ⟨?_, ?_, ?_⟩
  · simp [sys_lstat, FS.set_same]
  · simp [sys_open_rdonly, FS.set_same]
  · simp [send_file, sys_lstat, FS.set_same]

/-- For a non-empty file the failed `open` does end the process, but only through the
`fatal` of `sendfile`, after `txsize` has put the header on the Link. -/
theorem send_file_failed_open_nonempty (w : TxWorld) (path : Path) (d : List Nat) (m : Nat)
    (hfs : w.fs path = some (Node.file d m)) (hm : ¬ m / 256 % 2 = 1) (hup : w.linkUp = true)
    (hd : d ≠ []) :
    send_file w path = TxRes.fatal { w with out := w.out ++ long_to_mem w.le (htonl w.le d.length),
                                            log := w.log ++ [Msg.fatal_sendfile path] } := by
  have hpos : 0 < d.length := List.length_pos.mpr hd
  simp [send_file, sys_lstat, hfs, sys_open_rdonly, hm, txsize, hup, sys_sendfile, hpos]

theorem open_link_loop_assigned (res : List Candidate) :
    open_link_loop res (some (-1)) =
      some (match res.find? Candidate.connects with
        | some c => c.sock
        | none => -1) := by
  induction res with
  | nil => rfl
  | cons c rest ih =>
    unfold open_link_loop
    by_cases h1 : c.sock = -1
    · have hc : c.connects = false := by simp [Candidate.connects, h1]
      simp only [h1, if_true, List.find?, hc]
      exact ih
    · by_cases h2 : c.conn = 0
      · have hc : c.connects = true := by simp [Candidate.connects, h1, h2]
        simp only [h1, if_false, h2, if_true, List.find?, hc]
      · have hc : c.connects = false := by simp [Candidate.connects, h2]
        simp only [h1, if_false, h2, List.find?, hc]
        exact ih

/-- C12: for every non-empty list of candidate addresses (resolution having succeeded),
`open_link` returns the socket of the first candidate of the list on which both `socket`
and `connect` succeed, and -1 when there is none; the value returned is -1 if and only if
no candidate of the list connects. -/
theorem open_link_first_connecting (res : List Candidate) (hne : res ≠ []) :
    open_link 0 res = OpenRes.fd (match res.find? Candidate.connects with
        | some c => c.sock
        | none => -1) ∧
      (open_link 0 res = OpenRes.fd (-1) ↔ ∀ c ∈ res, c.connects = false) := by
  have hrun : open_link 0 res = OpenRes.fd (match res.find? Candidate.connects with
      | some c => c.sock
      | none => -1) := by
    cases res with
    | nil => exact absurd rfl hne
    | cons c rest =>
      have h := open_link_loop_assigned (c :: rest)
      have h0 : open_link_loop (c :: rest) none = open_link_loop (c :: rest) (some (-1)) := rfl
      simp only [open_link, ne_eq, not_true_eq_false, if_false, h0, h]
  refine ⟨hrun, ?_⟩
  rw [hrun]
  cases hf : res.find? Candidate.connects with
  | none =>
    simp only [true_iff]
    intro c hc
    have := List.find?_eq_none.mp hf c hc
    simpa using this
  | some c =>
    have hc : c.connects = true := List.find?_some hf
    have hmem : c ∈ res := List.mem_of_find?_eq_some hf
    constructor
    · intro h
      simp only [OpenRes.fd.injEq] at h
      simp [Candidate.connects, h] at hc
    · intro h
      rw [h c hmem] at hc
      cases hc

/-- The statement `open_link_first_connecting` on four candidates: `socket` fails on the
first, `connect` fails on the second, the third and fourth connect. -/
theorem open_link_first_connecting_witness :
    open_link 0 [⟨-1, 0⟩, ⟨3, -1⟩, ⟨4, 0⟩, ⟨5, 0⟩] = OpenRes.fd 4 ∧
      (open_link 0 [⟨-1, 0⟩, ⟨3, -1⟩, ⟨4, 0⟩, ⟨5, 0⟩] = OpenRes.fd (-1) ↔
        ∀ c ∈ [(⟨-1, 0⟩ : Candidate), ⟨3, -1⟩, ⟨4, 0⟩, ⟨5, 0⟩], c.connects = false) :=
  open_link_first_connecting [⟨-1, 0⟩, ⟨3, -1⟩, ⟨4, 0⟩, ⟨5, 0⟩] (by decide)

end Beamer

namespace Binscout

/-! ## Hexadecimal needles -/

theorem or_at_append (done : List Nat) (b : Nat) (rest : List Nat) (x : Nat) :
    or_at (done ++ b :: rest) done.length x = done ++ ((b ||| x) % 256) :: rest := by
  induction done with
  | nil => rfl
  | cons d ds ih => simp [or_at, ih]

theorem tohex_lt (c : Char) : tohex c < 16 := by
  unfold tohex
  split
  · omega
  · split
    · omega
    · split
      · omega
      · omega

theorem nybbles (a b : Nat) (ha : a < 16) (hb : b < 16) :
    (((0 ||| a * 16) % 256) ||| b * 1) % 256 = 16 * a + b := by
  revert b
  revert a
  decide

theorem low_nybble (b : Nat) (hb : b < 16) : (0 ||| b * 1) % 256 = b := by
  revert b
  decide

theorem loop_pairs (m : Nat) :
    ∀ (done : List Nat) (str : List Char), str.length = 2 * m →
      (∀ c ∈ str, isxdigit c = true) →
      compile_hex_loop (2 * m) str (2 * done.length) (done ++ List.replicate m 0)
        = some (done ++ decode_pairs str) := by
  induction m with
  | zero =>
    intro done str hlen _
    have : str = [] := List.length_eq_zero.mp (by simpa using hlen)
    subst this
    simp [compile_hex_loop, decode_pairs]
  | succ m ih =>
    intro done str hlen hx
    match str, hlen, hx with
    | a :: b :: rest, hlen, hx =>
      have ha : isxdigit a = true := hx a (by simp)
      have hb : isxdigit b = true := hx b (by simp)
      have hr : rest.length = 2 * m := by
        simp only [List.length_cons] at hlen
        omega
      have e1 : 2 * (m + 1) = (2 * m + 1) + 1 := by omega
      have e2 : 2 * done.length / 2 = done.length := by omega
      have e3 : (2 * done.length + 1) / 2 = done.length := by omega
      have e4 : 2 * done.length % 2 = 0 := by omega
      have e5 : ¬ ((2 * done.length + 1) % 2 = 0) := by omega
      rw [e1]
      simp only [compile_hex_loop, cur, List.headD_cons, ha, hb, if_true, List.tail_cons, e2, e3,
        e4, e5, if_false, List.replicate_succ, or_at_append,
        nybbles _ _ (tohex_lt a) (tohex_lt b)]
      have e6 : 2 * done.length + 1 + 1 = 2 * (done ++ [16 * tohex a + tohex b]).length := by
        simp only [List.length_append, List.length_singleton]
        omega
      have e7 : done ++ (16 * tohex a + tohex b) :: List.replicate m 0
          = (done ++ [16 * tohex a + tohex b]) ++ List.replicate m 0 := by simp
      rw [e6, e7, ih _ rest hr (fun c hc => hx c (by simp [hc]))]
      simp [decode_pairs]
    | [], hlen, _ => simp at hlen
    | [_], hlen, _ =>
      simp only [List.length_singleton] at hlen
      omega

theorem loop_bad (n : Nat) :
    ∀ (str : List Char) (ncnt : Nat) (vec : List Nat), str.length = n →
      (∃ c ∈ str, isxdigit c = false) → compile_hex_loop n str ncnt vec = none := by
  induction n with
  | zero =>
    intro str ncnt vec hlen hbad
    have : str = [] := List.length_eq_zero.mp hlen
    subst this
    simp at hbad
  | succ n ih =>
    intro str ncnt vec hlen hbad
    match str, hlen, hbad with
    | a :: rest, hlen, hbad =>
      by_cases ha : isxdigit a = true
      · simp only [compile_hex_loop, cur, List.headD_cons, ha, if_true, List.tail_cons]
        apply ih
        · simpa using hlen
        · obtain ⟨c, hc, hcx⟩ := hbad
          rcases List.mem_cons.mp hc with h | h
          · rw [h, ha] at hcx
            cases hcx
          · exact ⟨c, h, hcx⟩
      · simp [compile_hex_loop, cur, ha]

theorem decode_pairs_length (m : Nat) :
    ∀ str : List Char, str.length = 2 * m → (decode_pairs str).length = m := by
  induction m with
  | zero =>
    intro str h
    have : str = [] := List.length_eq_zero.mp (by simpa using h)
    subst this
    rfl
  | succ m ih =>
    intro str h
    match str, h with
    | a :: b :: rest, h =>
      simp only [decode_pairs, List.length_cons]
      rw [ih rest (by simp only [List.length_cons] at h; omega)]
    | [], h => simp at h
    | [_], h =>
      simp only [List.length_singleton] at h
      omega

/-- The width of the counters of `compile_hex`: on a string of 2 ^ 32 - 1 characters `g`
`binlen` is 2 ^ 31 and the `unsigned` product `2 * binlen` is 0, so the loop body never
runs and a vector of 2 ^ 31 zero bytes is returned. No argument of a command line is that
long; `compile_hex_decodes` is stated below this length. -/
theorem compile_hex_unchecked_at_4GiB :
    isxdigit 'g' = false ∧
      compile_hex (List.replicate (2 ^ 32 - 1) 'g') (2 ^ 32 - 1)
        = HexRes.vec (List.replicate (2 ^ 31) 0) := by
  constructor
  · decide
  · norm_num [compile_hex, compile_hex_loop]

/-- C14: for every non-empty string `s`: if every character of `s` is a hexadecimal digit,
`compile_hex(s, len)` returns the byte vector of length `ceil(len / 2)` that decodes `s`,
left-padded with one `0` digit when `len` is odd, the first digit of each pair being the
high nybble; and if some character of `s` is not a hexadecimal digit it returns `NULL`.
The string has fewer than 2 ^ 32 - 1 characters, the lengths for which the
`unsigned int` counters hold `len + 1`; `form_needle` passes one argument of the command
line, which is far shorter. -/
theorem compile_hex_decodes (s : List Char) (hne : s ≠ []) (hlen : s.length < 2 ^ 32 - 1) :
    ((∀ c ∈ s, isxdigit c = true) →
        compile_hex s s.length = HexRes.vec (hex_decode s) ∧
          (hex_decode s).length = (s.length + 1) / 2) ∧
      ((∃ c ∈ s, isxdigit c = false) → compile_hex s s.length = HexRes.null) := by
  have hpos : 0 < s.length := List.length_pos.mpr hne
  have h0 : s.length ≠ 0 := by omega
  have hb : (s.length + 1) / 2 % 2 ^ 32 = (s.length + 1) / 2 := by
    apply Nat.mod_eq_of_lt
    omega
  have hb2 : 2 * ((s.length + 1) / 2) % 2 ^ 32 = 2 * ((s.length + 1) / 2) := by
    apply Nat.mod_eq_of_lt
    omega
  have hunf : compile_hex s s.length =
      match compile_hex_loop (2 * ((s.length + 1) / 2) - (if s.length % 2 = 1 then 1 else 0))
          s (if s.length % 2 = 1 then 1 else 0) (List.replicate ((s.length + 1) / 2) 0) with
      | none => HexRes.null
      | some v => HexRes.vec v := by
    unfold compile_hex
    rw [if_neg h0, hb, hb2]
  rw [hunf]
  rcases Nat.mod_two_eq_zero_or_one s.length with hpar | hpar
  · -- even length
    obtain ⟨m, hm⟩ : ∃ m, s.length = 2 * m := ⟨s.length / 2, by omega⟩
    have hbin : (s.length + 1) / 2 = m := by omega
    have hodd : ¬ (s.length % 2 = 1) := by omega
    rw [if_neg hodd, hbin, Nat.sub_zero]
    constructor
    · intro hx
      have hl := loop_pairs m [] s hm hx
      simp only [List.length_nil, Nat.mul_zero, List.nil_append] at hl
      rw [hl]
      refine ⟨?_, ?_⟩
      · simp only [hex_decode, hodd, if_false]
      · simp only [hex_decode, hodd, if_false]
        exact decode_pairs_length m s hm
    · intro hbad
      rw [loop_bad (2 * m) s 0 (List.replicate m 0) hm hbad]
  · -- odd length
    obtain ⟨m, hm⟩ : ∃ m, s.length = 2 * m + 1 := ⟨s.length / 2, by omega⟩
    have hbin : (s.length + 1) / 2 = m + 1 := by omega
    have hrem : 2 * (m + 1) - 1 = 2 * m + 1 := by omega
    rw [if_pos hpar, hbin, hrem]
    match s, hm, hpar with
    | a :: rest, hm, hpar =>
      have hr : rest.length = 2 * m := by simpa using hm
      constructor
      · intro hx
        have ha : isxdigit a = true := hx a (by simp)
        have hl := loop_pairs m [tohex a] rest hr (fun c hc => hx c (by simp [hc]))
        simp only [List.length_singleton, Nat.mul_one, List.singleton_append] at hl
        have h00 : tohex '0' = 0 := by decide
        have e1 : (1 : Nat) / 2 = 0 := by decide
        have e2 : ¬ ((1 : Nat) % 2 = 0) := by decide
        have hstep : compile_hex_loop (2 * m + 1) (a :: rest) 1 (List.replicate (m + 1) 0)
            = compile_hex_loop (2 * m) rest 2 (tohex a :: List.replicate m 0) := by
          simp only [compile_hex_loop, cur, List.headD_cons, ha, if_true, List.tail_cons,
            List.replicate_succ, e1, e2, if_false, or_at, low_nybble _ (tohex_lt a)]
        rw [hstep, hl]
        have hdec : hex_decode (a :: rest) = tohex a :: decode_pairs rest := by
          unfold hex_decode
          rw [if_pos hpar]
          simp only [decode_pairs, h00, Nat.mul_zero, Nat.zero_add]
        rw [hdec]
        refine ⟨rfl, ?_⟩
        simp only [List.length_cons]
        rw [decode_pairs_length m rest hr]
      · intro hbad
        rw [loop_bad (2 * m + 1) (a :: rest) 1 (List.replicate (m + 1) 0) hm hbad]

/-- The statement `compile_hex_decodes` on the strings `abc` and `1g`. -/
theorem compile_hex_decodes_witness :
    (compile_hex "abc".toList 3 = HexRes.vec (hex_decode "abc".toList) ∧
        (hex_decode "abc".toList).length = (3 + 1) / 2) ∧
      compile_hex "1g".toList 2 = HexRes.null :=
  ⟨(compile_hex_decodes "abc".toList (by decide) (by decide)).1 (by decide),
    (compile_hex_decodes "1g".toList (by decide) (by decide)).2 (by decide)⟩

/-! ## The Boyer Moore Horspool search -/

theorem gen_tbl_loop_spec (len : Nat) (hlen : len < 2 ^ 32) :
    ∀ (l : List Nat) (i : Nat) (tbl : Nat → Nat), i + l.length = len →
      (∀ c, gen_tbl_loop len l i tbl c = tbl c ∨
        (1 ≤ gen_tbl_loop len l i tbl c ∧ gen_tbl_loop len l i tbl c ≤ l.length - 1)) ∧
      (∀ k, k + 1 < l.length → gen_tbl_loop len l i tbl (l.getD k 0) ≤ l.length - 1 - k) := by
  intro l
  induction l with
  | nil =>
    intro i tbl _
    simp [gen_tbl_loop]
  | cons b t ih =>
    intro i tbl hi
    cases t with
    | nil => simp [gen_tbl_loop]
    | cons b2 rest =>
      have hv : (len - 1 - i) % 2 ^ 32 = rest.length + 1 := by
        simp only [List.length_cons] at hi
        rw [Nat.mod_eq_of_lt (by omega)]
        omega
      simp only [gen_tbl_loop, hv]
      obtain ⟨h1, h2⟩ := ih (i + 1) (Function.update tbl b (rest.length + 1))
        (by simp only [List.length_cons] at hi ⊢; omega)
      simp only [List.length_cons] at h1 h2 ⊢
      constructor
      · intro c
        rcases h1 c with h | h
        · by_cases hc : c = b
          · right
            rw [h, hc, Function.update_same]
            omega
          · left
            rw [h, Function.update_noteq hc]
        · right
          omega
      · intro k hk
        cases k with
        | zero =>
          simp only [List.getD_cons_zero]
          rcases h1 b with h | h
          · rw [h, Function.update_same]
            omega
          · omega
        | succ k =>
          simp only [List.getD_cons_succ]
          have := h2 k (by omega)
          omega

theorem bmh_gen_tbl_spec (needle : List Nat) (hne : needle ≠ []) (hlen : needle.length ≤ 2 ^ 31) :
    ∃ tbl, bmh_gen_tbl needle = some tbl ∧
      (∀ c, 1 ≤ tbl c ∧ tbl c ≤ needle.length) ∧
      (∀ k, k + 1 < needle.length → tbl (needle.getD k 0) ≤ needle.length - 1 - k) := by
  have hpos : 0 < needle.length := List.length_pos.mpr hne
  have hd : ¬ (needle.length - 1 > INT_MAX) := by
    simp only [INT_MAX]
    omega
  obtain ⟨h1, h2⟩ := gen_tbl_loop_spec needle.length (by omega) needle 0
    (fun _ => needle.length % 2 ^ 32) (by omega)
  refine ⟨_, by simp only [bmh_gen_tbl, hd, if_false], ?_, h2⟩
  intro c
  have hm : needle.length % 2 ^ 32 = needle.length := Nat.mod_eq_of_lt (by omega)
  rcases h1 c with h | h
  · rw [h, hm]
    omega
  · omega

theorem window_eq_iff (hay needle : List Nat) (off : Nat) :
    ∀ i, window_eq hay needle off i = true ↔
      ∀ j, j ≤ i → hay.getD (off + j) 0 = needle.getD j 0 := by
  intro i
  induction i with
  | zero =>
    simp only [window_eq, decide_eq_true_eq, Nat.le_zero]
    constructor
    · intro h j hj
      rw [hj]
      exact h
    · intro h
      exact h 0 rfl
  | succ i ih =>
    unfold window_eq
    split
    · rename_i heq
      rw [ih]
      constructor
      · intro h j hj
        rcases Nat.lt_or_ge j (i + 1) with hlt | hge
        · exact h j (by omega)
        · have : j = i + 1 := by omega
          rw [this]
          exact heq
      · intro h j hj
        exact h j (by omega)
    · rename_i hneq
      constructor
      · intro h
        cases h
      · intro h
        exact absurd (h (i + 1) (Nat.le_refl _)) hneq

theorem occurs_at_iff (needle hay : List Nat) (off : Nat) (hne : needle ≠ []) :
    occurs_at needle hay off = true ↔
      off + needle.length ≤ hay.length ∧
        ∀ j, j < needle.length → hay.getD (off + j) 0 = needle.getD j 0 := by
  have hpos : 0 < needle.length := List.length_pos.mpr hne
  have key : ∀ j, j < needle.length →
      ((hay.drop off).take needle.length).getD j 0 = hay.getD (off + j) 0 := by
    intro j hj
    simp [List.getD_eq_getElem?_getD, List.getElem?_take, List.getElem?_drop, hj]
  simp only [occurs_at, decide_eq_true_eq]
  constructor
  · intro h
    have hl := congrArg List.length h
    simp only [List.length_take, List.length_drop] at hl
    refine ⟨by omega, ?_⟩
    intro j hj
    rw [← key j hj, h]
  · intro ⟨hb, h⟩
    apply List.ext_getElem?
    intro n
    rw [List.getElem?_take, List.getElem?_drop]
    by_cases hn : n < needle.length
    · have h1 := h n hn
      rw [List.getD_eq_getElem?_getD, List.getD_eq_getElem?_getD] at h1
      rw [if_pos hn]
      rw [List.getElem?_eq_getElem (by omega : off + n < hay.length)] at h1 ⊢
      rw [List.getElem?_eq_getElem hn] at h1 ⊢
      simpa using h1
    · rw [if_neg hn, List.getElem?_eq_none (by omega)]

theorem no_occurrence_skipped (needle hay : List Nat) (tbl : Nat → Nat) (off k : Nat)
    (hne : needle ≠ [])
    (htbl : ∀ i, i + 1 < needle.length → tbl (needle.getD i 0) ≤ needle.length - 1 - i)
    (hmax : tbl (hay.getD (off + needle.length - 1) 0) ≤ needle.length)
    (hk0 : 0 < k) (hk : k < tbl (hay.getD (off + needle.length - 1) 0)) :
    occurs_at needle hay (off + k) = false := by
  have hpos : 0 < needle.length := List.length_pos.mpr hne
  cases hocc : occurs_at needle hay (off + k) with
  | false => rfl
  | true =>
    obtain ⟨_, hpt⟩ := (occurs_at_iff needle hay (off + k) hne).mp hocc
    have h1 := hpt (needle.length - 1 - k) (by omega)
    have e : off + k + (needle.length - 1 - k) = off + needle.length - 1 := by omega
    rw [e] at h1
    have h2 := htbl (needle.length - 1 - k) (by omega)
    rw [← h1] at h2
    omega

theorem filter_range_skip (p : Nat → Bool) (k : Nat) :
    ∀ (a n : Nat), (∀ q, a ≤ q → q < a + k → p q = false) →
      (List.range' a n).filter p = (List.range' (a + k) (n - k)).filter p := by
  induction k with
  | zero =>
    intro a n _
    rfl
  | succ k ih =>
    intro a n h
    cases n with
    | zero => simp
    | succ n =>
      rw [List.range'_succ, List.filter_cons, h a (Nat.le_refl _) (by omega)]
      simp only [Bool.false_eq_true, if_false]
      rw [ih (a + 1) n (fun q h1 h2 => h q (by omega) (by omega))]
      have e1 : a + 1 + k = a + (k + 1) := by omega
      have e2 : n + 1 - (k + 1) = n - k := by omega
      rw [e1, e2]

theorem crawl_loop_bound (needle hay : List Nat) (off j : Nat) (hne : needle ≠ [])
    (hin : hay.length - off ≥ needle.length) (hj : j ≤ needle.length) :
    off + j ≤ hay.length := by
  have hpos : 0 < needle.length := List.length_pos.mpr hne
  omega

theorem crawl_loop_spec (needle hay : List Nat) (tbl : Nat → Nat) (hne : needle ≠ [])
    (hrange : ∀ c, 1 ≤ tbl c ∧ tbl c ≤ needle.length)
    (htbl : ∀ i, i + 1 < needle.length → tbl (needle.getD i 0) ≤ needle.length - 1 - i)
    (fuel : Nat) :
    ∀ (off : Nat) (out : List Nat), hay.length - off < fuel →
      crawl_loop hay needle tbl fuel off out =
        some (out ++ (List.range' off (hay.length + 1 - needle.length - off)).filter
          (occurs_at needle hay)) := by
  have hpos : 0 < needle.length := List.length_pos.mpr hne
  induction fuel with
  | zero =>
    intro off out h
    omega
  | succ fuel ih =>
    intro off out hf
    unfold crawl_loop
    split
    · rename_i hin
      have hj := hrange (hay.getD (off + needle.length - 1) 0)
      have hw : window_eq hay needle off (needle.length - 1) = occurs_at needle hay off := by
        cases ho : occurs_at needle hay off with
        | true =>
          obtain ⟨_, hpt⟩ := (occurs_at_iff needle hay off hne).mp ho
          exact (window_eq_iff hay needle off _).mpr (fun j hj => hpt j (by omega))
        | false =>
          cases hwe : window_eq hay needle off (needle.length - 1) with
          | false => rfl
          | true =>
            have hpt := (window_eq_iff hay needle off _).mp hwe
            have : occurs_at needle hay off = true :=
              (occurs_at_iff needle hay off hne).mpr
                ⟨by omega, fun j hj => hpt j (by omega)⟩
            rw [this] at ho
            cases ho
      rw [ih _ _ (by omega), hw]
      obtain ⟨n, hn⟩ : ∃ n, hay.length + 1 - needle.length - off = n + 1 :=
        ⟨hay.length + 1 - needle.length - off - 1, by omega⟩
      rw [hn, List.range'_succ, List.filter_cons]
      have hskip := filter_range_skip (occurs_at needle hay)
        (tbl (hay.getD (off + needle.length - 1) 0) - 1) (off + 1) n
        (fun q h1 h2 => by
          have := no_occurrence_skipped needle hay tbl off (q - off) hne htbl hj.2
            (by omega) (by omega)
          have e : off + (q - off) = q := by omega
          rw [e] at this
          exact this)
      have e1 : off + 1 + (tbl (hay.getD (off + needle.length - 1) 0) - 1)
          = off + tbl (hay.getD (off + needle.length - 1) 0) := by omega
      have e2 : n - (tbl (hay.getD (off + needle.length - 1) 0) - 1)
          = hay.length + 1 - needle.length
            - (off + tbl (hay.getD (off + needle.length - 1) 0)) := by omega
      rw [hskip, e1, e2]
      cases occurs_at needle hay off <;> simp
    · rename_i hin
      have e : hay.length + 1 - needle.length - off = 0 := by omega
      rw [e]
      simp

/-- C13: for every non-empty needle and every non-empty haystack, `bmh_crawl` returns (fuel
for one pass per haystack byte suffices) and the offsets it has printed are exactly the
offsets `0 <= off <= size - len` at which the needle bytes equal
`haystack[off .. off + len)`, each once and in increasing order, overlapping occurrences
included. The needle has at most 2 ^ 31 bytes, the lengths the `int` counter of
`bmh_gen_tbl` can walk; a needle is built by `form_needle` from one argument of the
command line, which is far shorter. -/
theorem bmh_crawl_prints_occurrences (needle hay : List Nat) (fuel : Nat) (hne : needle ≠ [])
    (hhay : hay ≠ []) (hlen : needle.length ≤ 2 ^ 31) (hfuel : hay.length < fuel) :
    bmh_crawl fuel needle hay = Crawl.done (occurrences needle hay) := by
  obtain ⟨tbl, ht, hrange, htbl⟩ := bmh_gen_tbl_spec needle hne hlen
  have h1 : ¬ (needle.length = 0 ∨ hay.length = 0) := by
    have := List.length_pos.mpr hne
    have := List.length_pos.mpr hhay
    omega
  have hl := crawl_loop_spec needle hay tbl hne hrange htbl fuel 0 [] (by omega)
  simp only [bmh_crawl, h1, if_false, ht, hl, occurrences, List.range_eq_range', Nat.sub_zero,
    List.nil_append]

/-- The statement `bmh_crawl_prints_occurrences` on the needle `1 2 1` and a haystack in
which it occurs at the offsets 0, 2 (overlapping) and 6. -/
theorem bmh_crawl_prints_occurrences_witness :
    bmh_crawl 10 [1, 2, 1] [1, 2, 1, 2, 1, 0, 1, 2, 1]
        = Crawl.done (occurrences [1, 2, 1] [1, 2, 1, 2, 1, 0, 1, 2, 1]) ∧
      occurrences [1, 2, 1] [1, 2, 1, 2, 1, 0, 1, 2, 1] = [0, 2, 6] :=
  ⟨bmh_crawl_prints_occurrences [1, 2, 1] [1, 2, 1, 2, 1, 0, 1, 2, 1] 10 (by decide) (by decide)
      (by decide) (by decide), by decide⟩

end Binscout
